import Mathlib

/-!
# Frequency-domain image compression (`final_project/main.cpp`)

A shallow embedding of the numeric pipeline of `main.cpp`:
`convert_to_grayscale`, `generate_dft`, `fftshift`, `compress_img`, `ifftshift`,
`apply_inverse_dft`.

Modelling conventions.

* An Eigen matrix with `M` rows and `N` columns is a `Matrix (Fin M) (Fin N) α`.
  A freshly constructed `ComplexMatrix shifted(rows, cols)` holds indeterminate
  values; `fftshift`, `ifftshift` and `apply_inverse_dft`, which fill such a
  matrix at computed positions, take the indeterminate content as an explicit
  argument `uninit`, and the theorems quantify over it.
* A loop nest `for i < M, for j < N` is the list `loopNest M N` of index pairs
  in iteration order; the element assignments executed by the nest are a list
  of `(cell, value)` pairs that is run by `runAssignments`.
* `double` values are real numbers (exact arithmetic), `complex<double>` values
  are complex numbers.  The result of a `double` division is an `Option ℝ`:
  `none` stands for the non-finite result (NaN or ±Inf) of a division by zero.
  One product is not idealised: `M * N * compression_rate` in `compress_img` is
  truncated to an `int`, so its rounding to binary64 decides how many entries
  are kept; it is rounded by `to_double`.
* `int` values are natural numbers or integers; the sizes are assumed small
  enough that no `int` operation overflows.
* Console output (`cout`) is not modelled.
-/

namespace FourierCompress

/-! ## Matrices, loop nests and element assignments -/

/-- A cell `(row, column)` of an `M × N` matrix. -/
abbrev Cell (M N : ℕ) := Fin M × Fin N

/-- The index pairs visited by `for (i = 0; i < M; i++) for (j = 0; j < N; j++)`,
in iteration order (row-major). -/
def loopNest (M N : ℕ) : List (Cell M N) :=
  (List.finRange M).flatMap fun i => (List.finRange N).map fun j => (i, j)

/-- One element assignment `A(c.1, c.2) = v`. -/
def assign {α : Type*} {M N : ℕ} (A : Matrix (Fin M) (Fin N) α) (w : Cell M N × α) :
    Matrix (Fin M) (Fin N) α :=
  fun a b => if (a, b) = w.1 then w.2 else A a b

/-- Run a sequence of element assignments, first to last. -/
def runAssignments {α : Type*} {M N : ℕ} (A : Matrix (Fin M) (Fin N) α)
    (ws : List (Cell M N × α)) : Matrix (Fin M) (Fin N) α :=
  ws.foldl assign A

/-- The index `(i + off) % n` computed by both shift functions. -/
def wrapIndex (n off : ℕ) (i : Fin n) : Fin n :=
  ⟨(i.val + off) % n, Nat.mod_lt _ i.pos⟩

/-! ## `fftshift` and `ifftshift` (main.cpp lines 20-75) -/

/-- The assignments `shifted(new_i, new_j) = input(i, j)` of `fftshift`, with
`row_mid = rows / 2`, `col_mid = cols / 2`, `new_i = (i + row_mid) % rows` and
`new_j = (j + col_mid) % cols`. -/
def fftshift_assignments {α : Type*} {M N : ℕ} (input : Matrix (Fin M) (Fin N) α) :
    List (Cell M N × α) :=
  (loopNest M N).map fun c =>
    ((wrapIndex M (M / 2) c.1, wrapIndex N (N / 2) c.2), input c.1 c.2)

/-- The function `fftshift`: the matrix `shifted` after the loop nest. -/
def fftshift {α : Type*} {M N : ℕ} (uninit input : Matrix (Fin M) (Fin N) α) :
    Matrix (Fin M) (Fin N) α :=
  runAssignments uninit (fftshift_assignments input)

/-- The assignments `shifted(new_i, new_j) = input(i, j)` of `ifftshift`, with
`new_i = (i + row_mid * 2) % rows` and `new_j = (j + col_mid * 2) % cols`. -/
def ifftshift_assignments {α : Type*} {M N : ℕ} (input : Matrix (Fin M) (Fin N) α) :
    List (Cell M N × α) :=
  (loopNest M N).map fun c =>
    ((wrapIndex M (M / 2 * 2) c.1, wrapIndex N (N / 2 * 2) c.2), input c.1 c.2)

/-- The function `ifftshift`: the matrix `shifted` after the loop nest. -/
def ifftshift {α : Type*} {M N : ℕ} (uninit input : Matrix (Fin M) (Fin N) α) :
    Matrix (Fin M) (Fin N) α :=
  runAssignments uninit (ifftshift_assignments input)

/-! ## `compress_img` (main.cpp lines 194-229)

The function is embedded for an arbitrary entry type `α` with a magnitude
function `mag : α → β` into a linear order; the program uses `α = ℂ` and
`mag = Complex.abs` (`abs(dft(i, j))`).  The keep fraction is the rational
value of the `double` argument, and the product `M * N * compression_rate` is
the exact product rounded to binary64. -/

/-- The comparison `operator<` of `std::pair<double, std::pair<int, int>>`:
`x.first < y.first || (!(y.first < x.first) && x.second < y.second)`, with the
same rule for the inner pair. -/
def pair_lt {β : Type*} [LT β] {M N : ℕ} (x y : β × Cell M N) : Prop :=
  x.1 < y.1 ∨ (¬ y.1 < x.1 ∧ (x.2.1 < y.2.1 ∨ (¬ y.2.1 < x.2.1 ∧ x.2.2 < y.2.2)))

instance pair_lt_decidable {β : Type*} [LT β] [DecidableRel (fun (a b : β) => a < b)]
    {M N : ℕ} : DecidableRel (fun (x y : β × Cell M N) => pair_lt x y) :=
  fun x y => by unfold pair_lt; exact inferInstance

/-- The order in which `std::sort` leaves two elements: `y` does not compare
less than `x`. -/
def pair_le {β : Type*} [LT β] {M N : ℕ} (x y : β × Cell M N) : Prop :=
  ¬ pair_lt y x

instance pair_le_decidable {β : Type*} [LT β] [DecidableRel (fun (a b : β) => a < b)]
    {M N : ℕ} : DecidableRel (fun (x y : β × Cell M N) => pair_le x y) :=
  fun x y => by unfold pair_le; exact inferInstance

/-- The vector `magnitude_indices` after the first loop nest: one entry
`{abs(dft(i, j)), {i, j}}` per cell, pushed in iteration order. -/
def magnitude_indices {α β : Type*} {M N : ℕ} (mag : α → β)
    (dft : Matrix (Fin M) (Fin N) α) : List (β × Cell M N) :=
  (loopNest M N).map fun c => (mag (dft c.1 c.2), c)

/-- The vector after `sort(magnitude_indices.begin(), magnitude_indices.end())`:
ascending for `operator<`.  The entries are pairwise different and the order
is total, so the sorted arrangement does not depend on the sorting algorithm
(see `sorted_magnitude_indices_unique`). -/
def sorted_magnitude_indices {α β : Type*} [LinearOrder β] {M N : ℕ} (mag : α → β)
    (dft : Matrix (Fin M) (Fin N) α) : List (β × Cell M N) :=
  (magnitude_indices mag dft).insertionSort pair_le

/-- The conversion `static_cast<int>(x)` of a `double` in `int` range:
truncation toward zero. -/
def truncToInt (x : ℚ) : ℤ :=
  if 0 ≤ x then ⌊x⌋ else ⌈x⌉

/-- Rounding of a rational to the nearest integer, a tie going to the even
one. -/
def roundNearestEven (y : ℚ) : ℤ :=
  if y - ⌊y⌋ < 1 / 2 then ⌊y⌋
  else if 1 / 2 < y - ⌊y⌋ then ⌊y⌋ + 1
  else if ⌊y⌋ % 2 = 0 then ⌊y⌋ else ⌊y⌋ + 1

/-- The exponent `e` of the binade `2^e ≤ |x| < 2^(e+1)` that fixes the spacing
of the binary64 numbers around `x`: at least `-1022` (below, the subnormal
numbers keep the spacing `2^-1074`) and at most 52.  The cap at 52 keeps the
spacing at 1 from `2^53` on, in line with the convention that `int` values are
unbounded; below `2^53`, which contains the `int` range, it changes nothing. -/
def binade (x : ℚ) : ℤ :=
  max (-1022) (min 52 (Int.log 2 |x|))

/-- The spacing of the binary64 numbers around `x` (53-bit significand). -/
def ulp (x : ℚ) : ℚ :=
  (2 : ℚ) ^ (binade x - 52)

/-- The binary64 number nearest to `x`, ties to even: the rounding of an IEEE
`double` operation whose exact result is `x`.  Overflow to infinity is not
modelled. -/
def to_double (x : ℚ) : ℚ :=
  (roundNearestEven (x / ulp x) : ℚ) * ulp x

/-- The value `keep_count = static_cast<int>(M * N * compression_rate)`: the
`int` product `M * N` converts to `double` exactly, the `double` product is
rounded, and the result is truncated. -/
def keep_count (M N : ℕ) (compression_rate : ℚ) : ℤ :=
  truncToInt (to_double (((M * N : ℕ) : ℚ) * compression_rate))

/-- The entries visited by
`for (int i = magnitude_indices.size() - keep_count; i < magnitude_indices.size(); ++i)`.
The test `i < size()` is made in `size_t`: a negative start index converts to
a huge unsigned value and the body never runs. -/
def kept_entries {α β : Type*} [LinearOrder β] {M N : ℕ} (mag : α → β)
    (dft : Matrix (Fin M) (Fin N) α) (compression_rate : ℚ) : List (β × Cell M N) :=
  let sorted := sorted_magnitude_indices mag dft
  let start : ℤ := (sorted.length : ℤ) - keep_count M N compression_rate
  if start < 0 then [] else sorted.drop start.toNat

/-- The assignments `dft_compressed(row, col) = dft(row, col)` of the last loop. -/
def compress_assignments {α β : Type*} [LinearOrder β] {M N : ℕ} (mag : α → β)
    (dft : Matrix (Fin M) (Fin N) α) (compression_rate : ℚ) : List (Cell M N × α) :=
  (kept_entries mag dft compression_rate).map fun e => (e.2, dft e.2.1 e.2.2)

/-- The function `compress_img`: `ComplexMatrix::Zero(M, N)` after the
assignments of the last loop. -/
def compress_img {α β : Type*} [Zero α] [LinearOrder β] {M N : ℕ} (mag : α → β)
    (dft : Matrix (Fin M) (Fin N) α) (compression_rate : ℚ) : Matrix (Fin M) (Fin N) α :=
  runAssignments 0 (compress_assignments mag dft compression_rate)

/-- The cells whose input value is copied to the output by `compress_img`. -/
def retained_cells {α β : Type*} [LinearOrder β] {M N : ℕ} (mag : α → β)
    (dft : Matrix (Fin M) (Fin N) α) (compression_rate : ℚ) : List (Cell M N) :=
  (compress_assignments mag dft compression_rate).map Prod.fst

/-- The lexicographic key that `operator<` compares. -/
def lexKey {β : Type*} {M N : ℕ} (x : β × Cell M N) : β ×ₗ (Fin M ×ₗ Fin N) :=
  toLex (x.1, toLex x.2)

/-! ## Transform matrices and the forward transform (main.cpp lines 135-177, 255-269)

The loop nests of `dft_matrix`, `inverse_dft_matrix` and of the conversion to
`img_complex` assign to the cell `(k, n)` a value that depends on `(k, n)` only;
they are written as the matrix of that value. -/

/-- The function `dft_matrix`: `angle = -2.0 * M_PI * k * n / N` and
`W(k, n) = exp(-j * Complex(angle))` with `j = Complex(0, 1)`. -/
noncomputable def dft_matrix (N : ℕ) : Matrix (Fin N) (Fin N) ℂ :=
  Matrix.of fun k n =>
    let angle : ℝ := -2 * Real.pi * (k.val : ℝ) * (n.val : ℝ) / (N : ℝ)
    Complex.exp (-Complex.I * (angle : ℂ))

/-- The function `inverse_dft_matrix`: `angle = 2.0 * M_PI * k * n / N` and
`W(k, n) = exp(j * Complex(angle)) / static_cast<double>(N)`. -/
noncomputable def inverse_dft_matrix (N : ℕ) : Matrix (Fin N) (Fin N) ℂ :=
  Matrix.of fun k n =>
    let angle : ℝ := 2 * Real.pi * (k.val : ℝ) * (n.val : ℝ) / (N : ℝ)
    Complex.exp (Complex.I * (angle : ℂ)) / (((N : ℝ)) : ℂ)

/-- The function `generate_dft`: `W_M * img_complex * W_N` with
`img_complex(i, j) = Complex(img(i, j), 0.0)`. -/
noncomputable def generate_dft {M N : ℕ} (img : Matrix (Fin M) (Fin N) ℝ) :
    Matrix (Fin M) (Fin N) ℂ :=
  let W_M := dft_matrix M
  let W_N := dft_matrix N
  let img_complex : Matrix (Fin M) (Fin N) ℂ := Matrix.of fun i j => (⟨img i j, 0⟩ : ℂ)
  let row_dft := W_M * img_complex
  row_dft * W_N

/-! ## `apply_inverse_dft` (main.cpp lines 272-315) -/

/-- The constant `numeric_limits<double>::max()` of IEEE binary64;
`numeric_limits<double>::lowest()` is its negation. -/
noncomputable def DBL_MAX : ℝ := (2 - 1 / 2 ^ 52) * 2 ^ 1023

/-- A `double` division: a zero divisor yields a non-finite value (NaN for
`0/0`, ±Inf otherwise), written `none`. -/
noncomputable def fdiv (a b : ℝ) : Option ℝ :=
  if b = 0 then none else some (a / b)

/-- The product `reconstructed_complex = W_M * dft_compressed * W_N` formed at
the start of `apply_inverse_dft`. -/
noncomputable def reconstructed_complex {M N : ℕ} (dft_compressed : Matrix (Fin M) (Fin N) ℂ) :
    Matrix (Fin M) (Fin N) ℂ :=
  let W_M := inverse_dft_matrix M
  let W_N := inverse_dft_matrix N
  W_M * dft_compressed * W_N

/-- One iteration of the first pass: `min_val = min(min_val, val)` and
`max_val = max(max_val, val)`; the state is `(min_val, max_val)`. -/
noncomputable def min_max_step (s : ℝ × ℝ) (val : ℝ) : ℝ × ℝ :=
  (min s.1 val, max s.2 val)

/-- The pair `(min_val, max_val)` after the first pass over
`val = abs(reconstructed_complex(i, j))`. -/
noncomputable def min_max_pass {M N : ℕ} (R : Matrix (Fin M) (Fin N) ℂ) : ℝ × ℝ :=
  ((loopNest M N).map fun c => Complex.abs (R c.1 c.2)).foldl min_max_step (DBL_MAX, -DBL_MAX)

/-- The index `rotated_i = M - 1 - i`. -/
def rotated (n : ℕ) (i : Fin n) : Fin n :=
  ⟨n - 1 - i.val, by have := i.isLt; omega⟩

/-- The assignments of the second pass:
`reconstructed_image(rotated_i, rotated_j) = (abs(reconstructed_complex(i, j)) - min_val) / range`
with `range = max_val - min_val`. -/
noncomputable def normalize_assignments {M N : ℕ} (R : Matrix (Fin M) (Fin N) ℂ) :
    List (Cell M N × Option ℝ) :=
  let min_val := (min_max_pass R).1
  let max_val := (min_max_pass R).2
  let range := max_val - min_val
  (loopNest M N).map fun c =>
    ((rotated M c.1, rotated N c.2), fdiv (Complex.abs (R c.1 c.2) - min_val) range)

/-- The function `apply_inverse_dft`: the matrix `reconstructed_image` after the
second pass. -/
noncomputable def apply_inverse_dft {M N : ℕ} (uninit : Matrix (Fin M) (Fin N) (Option ℝ))
    (dft_compressed : Matrix (Fin M) (Fin N) ℂ) : Matrix (Fin M) (Fin N) (Option ℝ) :=
  runAssignments uninit (normalize_assignments (reconstructed_complex dft_compressed))

/-! ## The pipeline of `main` (main.cpp lines 354-367) -/

/-- The chain `generate_dft`, `fftshift`, `compress_img`, `ifftshift`,
`apply_inverse_dft` of `main`, with the keep fraction (0.01 in `main`) as a
parameter. -/
noncomputable def main_pipeline {M N : ℕ} (u1 u2 : Matrix (Fin M) (Fin N) ℂ)
    (u3 : Matrix (Fin M) (Fin N) (Option ℝ)) (gray_image : Matrix (Fin M) (Fin N) ℝ)
    (compression_rate : ℚ) : Matrix (Fin M) (Fin N) (Option ℝ) :=
  let dft_result := generate_dft gray_image
  let dft_shifted := fftshift u1 dft_result
  let dft_compressed := compress_img Complex.abs dft_shifted compression_rate
  let dft_unshifted := ifftshift u2 dft_compressed
  apply_inverse_dft u3 dft_unshifted

/-! ## `convert_to_grayscale` (main.cpp lines 91-133)

The pixel buffer `unsigned char *image` is a map from offsets to bytes; it is
assumed to cover every offset that is read.  The intensities are taken in an
arbitrary field `K` (exact arithmetic: the rationals or the reals), and the
loop nests, which assign to the cell `(y, x)` a value that depends on `(y, x)`
only, are written as the matrix of that value. -/

/-- The failure of `convert_to_grayscale`: the message
"Unsupported image format with `channels` channels." followed by `exit(-1)`. -/
inductive GrayscaleFailure where
  | UnsupportedFormat (channels : ℤ)
  deriving DecidableEq

/-- The function `convert_to_grayscale`.  For one channel
`gray_image(y, x) = static_cast<double>(image[y * width + x]) / 255.0`; for
three channels, with `index = (y * width + x) * channels`, the values `r`, `g`,
`b` are the bytes at `index`, `index + 1`, `index + 2` divided by 255.0 and
`gray_image(y, x) = 0.299 * r + 0.587 * g + 0.114 * b`. -/
def convert_to_grayscale {K : Type*} [Field K] (image : ℕ → Fin 256) (width height : ℕ)
    (channels : ℤ) : Except GrayscaleFailure (Matrix (Fin height) (Fin width) K) :=
  if channels = 1 then
    Except.ok (Matrix.of fun y x => ((image (y.val * width + x.val)).val : K) / 255.0)
  else if channels = 3 then
    Except.ok (Matrix.of fun y x =>
      let index : ℤ := ((y.val : ℤ) * (width : ℤ) + (x.val : ℤ)) * channels
      let r : K := ((image index.toNat).val : K) / 255.0
      let g : K := ((image (index + 1).toNat).val : K) / 255.0
      let b : K := ((image (index + 2).toNat).val : K) / 255.0
      0.299 * r + 0.587 * g + 0.114 * b)
  else
    Except.error (GrayscaleFailure.UnsupportedFormat channels)

/-- A three-channel pixel buffer with `(R, G, B) = (100, 150, 200)` at every
pixel. -/
def uniform_rgb_buffer : ℕ → Fin 256 :=
  fun offset => if offset % 3 = 0 then 100 else if offset % 3 = 1 then 150 else 200

/-! ## Auxiliary definitions used by the proofs -/

/-- The root of unity `exp(2πi/N)`. -/
noncomputable def unitRoot (N : ℕ) : ℂ :=
  Complex.exp (2 * (Real.pi : ℂ) * Complex.I / (N : ℂ))

/-- The index `(n - i) % n`: negation modulo `n`. -/
def negIndex (n : ℕ) (i : Fin n) : Fin n :=
  ⟨(n - i.val) % n, Nat.mod_lt _ i.pos⟩

/-- The spectrum of the 1 × 2 image with entries 0, 1. -/
noncomputable def sample_spectrum : Matrix (Fin 1) (Fin 2) ℂ :=
  generate_dft (!![0, 1] : Matrix (Fin 1) (Fin 2) ℝ)

/-! ## Generic facts about loop nests and assignments -/

theorem loopNest_eq_product (M N : ℕ) :
    loopNest M N = (List.finRange M) ×ˢ (List.finRange N) := rfl

theorem mem_loopNest {M N : ℕ} (c : Cell M N) : c ∈ loopNest M N := by
  rw [loopNest_eq_product]
  exact List.mem_product.mpr ⟨List.mem_finRange _, List.mem_finRange _⟩

theorem nodup_loopNest (M N : ℕ) : (loopNest M N).Nodup := by
  rw [loopNest_eq_product]
  exact (List.nodup_finRange M).product (List.nodup_finRange N)

theorem length_loopNest (M N : ℕ) : (loopNest M N).length = M * N := by
  rw [loopNest_eq_product, List.length_product, List.length_finRange, List.length_finRange]

theorem wrapIndex_injective (n off : ℕ) : Function.Injective (wrapIndex n off) := by
  intro i j h
  have h1 : (i.val + off) % n = (j.val + off) % n := congrArg Fin.val h
  have h2 : i.val % n = j.val % n := Nat.ModEq.add_right_cancel' off h1
  rw [Nat.mod_eq_of_lt i.isLt, Nat.mod_eq_of_lt j.isLt] at h2
  exact Fin.ext h2

theorem wrapIndex_wrapIndex (n a b : ℕ) (i : Fin n) :
    wrapIndex n b (wrapIndex n a i) = wrapIndex n (a + b) i := by
  apply Fin.ext
  simp only [wrapIndex]
  rw [Nat.mod_add_mod, Nat.add_assoc]

theorem wrapIndex_of_dvd (n off : ℕ) (h : n ∣ off) (i : Fin n) : wrapIndex n off i = i := by
  apply Fin.ext
  obtain ⟨k, rfl⟩ := h
  simp only [wrapIndex]
  rw [Nat.add_mul_mod_self_left, Nat.mod_eq_of_lt i.isLt]

/-- A cell that no assignment targets keeps its previous content. -/
theorem runAssignments_of_not_mem {α : Type*} {M N : ℕ} (ws : List (Cell M N × α))
    (A : Matrix (Fin M) (Fin N) α) (c : Cell M N) (h : c ∉ ws.map Prod.fst) :
    runAssignments A ws c.1 c.2 = A c.1 c.2 := by
  induction ws generalizing A with
  | nil => rfl
  | cons w ws ih =>
    simp only [List.map_cons, List.mem_cons, not_or] at h
    have step : runAssignments A (w :: ws) = runAssignments (assign A w) ws := rfl
    rw [step, ih (assign A w) h.2]
    simp only [assign]
    rw [if_neg]
    exact h.1

/-- When no cell is targeted twice, a targeted cell ends up holding the value
assigned to it. -/
theorem runAssignments_of_mem {α : Type*} {M N : ℕ} (ws : List (Cell M N × α))
    (A : Matrix (Fin M) (Fin N) α) (hnd : (ws.map Prod.fst).Nodup)
    (c : Cell M N) (v : α) (h : (c, v) ∈ ws) :
    runAssignments A ws c.1 c.2 = v := by
  induction ws generalizing A with
  | nil => simp at h
  | cons w ws ih =>
    have step : runAssignments A (w :: ws) = runAssignments (assign A w) ws := rfl
    rw [List.map_cons, List.nodup_cons] at hnd
    rw [step]
    rcases List.mem_cons.mp h with hw | hw
    · subst hw
      rw [runAssignments_of_not_mem ws _ c hnd.1]
      simp [assign]
    · exact ih _ hnd.2 hw

/-- The write targets of a shift by `(a, b)`. -/
theorem shift_targets_nodup (M N a b : ℕ) :
    ((loopNest M N).map fun c => (wrapIndex M a c.1, wrapIndex N b c.2)).Nodup := by
  refine (nodup_loopNest M N).map ?_
  intro c d h
  have h1 := wrapIndex_injective M a (congrArg Prod.fst h)
  have h2 := wrapIndex_injective N b (congrArg Prod.snd h)
  exact Prod.ext h1 h2

/-- A loop nest that assigns `input(i, j)` to the cell `(i + a) % M, (j + b) % N`
produces the cyclic shift of `input` by `(a, b)`, whatever the matrix held
before. -/
theorem shift_apply {α : Type*} {M N : ℕ} (a b : ℕ) (uninit input : Matrix (Fin M) (Fin N) α)
    (i : Fin M) (j : Fin N) :
    runAssignments uninit ((loopNest M N).map fun c =>
      ((wrapIndex M a c.1, wrapIndex N b c.2), input c.1 c.2))
      (wrapIndex M a i) (wrapIndex N b j) = input i j := by
  refine runAssignments_of_mem _ uninit ?_ (wrapIndex M a i, wrapIndex N b j) (input i j) ?_
  · rw [List.map_map]
    exact shift_targets_nodup M N a b
  · exact List.mem_map.mpr ⟨(i, j), mem_loopNest _, rfl⟩

theorem fftshift_apply {α : Type*} {M N : ℕ} (uninit input : Matrix (Fin M) (Fin N) α)
    (i : Fin M) (j : Fin N) :
    fftshift uninit input (wrapIndex M (M / 2) i) (wrapIndex N (N / 2) j) = input i j :=
  shift_apply (M / 2) (N / 2) uninit input i j

theorem ifftshift_apply {α : Type*} {M N : ℕ} (uninit input : Matrix (Fin M) (Fin N) α)
    (i : Fin M) (j : Fin N) :
    ifftshift uninit input (wrapIndex M (M / 2 * 2) i) (wrapIndex N (N / 2 * 2) j) = input i j :=
  shift_apply (M / 2 * 2) (N / 2 * 2) uninit input i j

/-- The composition `ifftshift ∘ fftshift` moves the entry `(i, j)` to
`((i + 3·⌊M/2⌋) % M, (j + 3·⌊N/2⌋) % N)`. -/
theorem ifftshift_fftshift_apply {α : Type*} {M N : ℕ}
    (u1 u2 input : Matrix (Fin M) (Fin N) α) (i : Fin M) (j : Fin N) :
    ifftshift u2 (fftshift u1 input) (wrapIndex M (M / 2 + M / 2 * 2) i)
      (wrapIndex N (N / 2 + N / 2 * 2) j) = input i j := by
  rw [← wrapIndex_wrapIndex, ← wrapIndex_wrapIndex, ifftshift_apply, fftshift_apply]

theorem wrapIndex_surjective (n off : ℕ) : Function.Surjective (wrapIndex n off) :=
  Finite.injective_iff_surjective.mp (wrapIndex_injective n off)

/-- Every cell is the write target of a shift by `(a, b)`. -/
theorem mem_shift_targets (M N a b : ℕ) (c : Cell M N) :
    c ∈ (loopNest M N).map fun d => (wrapIndex M a d.1, wrapIndex N b d.2) := by
  obtain ⟨i, hi⟩ := wrapIndex_surjective M a c.1
  obtain ⟨j, hj⟩ := wrapIndex_surjective N b c.2
  exact List.mem_map.mpr ⟨(i, j), mem_loopNest _, Prod.ext hi hj⟩

/-- In a list without duplicates a member occurs exactly once. -/
theorem countP_eq_one_of_nodup {γ : Type*} [DecidableEq γ] (l : List γ) (c : γ)
    (hnd : l.Nodup) (hm : c ∈ l) : l.countP (fun d => decide (d = c)) = 1 := by
  have h := List.count_eq_one_of_mem hnd hm
  rw [List.count] at h
  rw [← h]
  apply List.countP_congr
  intro x _
  simp

/-! ## The spectrum shifter -/

/-- C9: for every `M × N` matrix `X` and every cell `(i, j)`, the matrix returned
by `fftshift` holds `X(i, j)` at `((i + ⌊M/2⌋) mod M, (j + ⌊N/2⌋) mod N)`, and
every cell of the output is the target of exactly one assignment of the loop
nest. -/
theorem C9_fftshift_moves_and_writes_once {α : Type*} {M N : ℕ}
    (uninit X : Matrix (Fin M) (Fin N) α) :
    (∀ (i : Fin M) (j : Fin N),
      fftshift uninit X ⟨(i.val + M / 2) % M, Nat.mod_lt _ i.pos⟩
        ⟨(j.val + N / 2) % N, Nat.mod_lt _ j.pos⟩ = X i j) ∧
    (∀ c : Cell M N,
      ((fftshift_assignments X).map Prod.fst).countP (fun d => decide (d = c)) = 1) := by
  constructor
  · intro i j
    exact fftshift_apply uninit X i j
  · intro c
    have hmap : (fftshift_assignments X).map Prod.fst =
        (loopNest M N).map fun d => (wrapIndex M (M / 2) d.1, wrapIndex N (N / 2) d.2) := by
      simp only [fftshift_assignments, List.map_map]
      rfl
    rw [hmap]
    exact countP_eq_one_of_nodup _ c (shift_targets_nodup M N _ _) (mem_shift_targets M N _ _ c)

/-- C1 at the failing input: on the 2 × 1 matrix with entries 1, 2 the
composition `ifftshift ∘ fftshift` returns the matrix with entries 2, 1, not the
input (for an even size `ifftshift` moves nothing). -/
theorem C1_ifftshift_fftshift_two_rows (u1 u2 : Matrix (Fin 2) (Fin 1) ℂ) :
    ifftshift u2 (fftshift u1 !![1; 2]) = !![2; 1] := by
  ext i j
  fin_cases i <;> fin_cases j
  · exact ifftshift_fftshift_apply u1 u2 !![1; 2] 1 0
  · exact ifftshift_fftshift_apply u1 u2 !![1; 2] 0 0



theorem lexKey_injective {β : Type*} {M N : ℕ} :
    Function.Injective (lexKey : β × Cell M N → β ×ₗ (Fin M ×ₗ Fin N)) := by
  intro x y h
  simp only [lexKey, EmbeddingLike.apply_eq_iff_eq, Prod.mk.injEq] at h
  exact Prod.ext h.1 h.2

theorem pair_lt_iff_lexKey {β : Type*} [LinearOrder β] {M N : ℕ} (x y : β × Cell M N) :
    pair_lt x y ↔ lexKey x < lexKey y := by
  obtain ⟨x1, x2, x3⟩ := x
  obtain ⟨y1, y2, y3⟩ := y
  simp only [pair_lt, lexKey, Prod.Lex.lt_iff, ofLex_toLex]
  rcases lt_trichotomy x1 y1 with h | h | h
  · simp [h]
  · subst h
    rcases lt_trichotomy x2 y2 with h2 | h2 | h2
    · simp [h2]
    · subst h2
      simp
    · simp [h2, h2.asymm, h2.ne']
  · simp [h, h.asymm, h.ne']

theorem pair_le_iff_lexKey {β : Type*} [LinearOrder β] {M N : ℕ} (x y : β × Cell M N) :
    pair_le x y ↔ lexKey x ≤ lexKey y := by
  rw [pair_le, pair_lt_iff_lexKey, not_lt]

theorem pair_le_total {β : Type*} [LinearOrder β] {M N : ℕ} (x y : β × Cell M N) :
    pair_le x y ∨ pair_le y x := by
  rw [pair_le_iff_lexKey, pair_le_iff_lexKey]
  exact le_total _ _

theorem pair_le_trans {β : Type*} [LinearOrder β] {M N : ℕ} (x y z : β × Cell M N)
    (hxy : pair_le x y) (hyz : pair_le y z) : pair_le x z := by
  rw [pair_le_iff_lexKey] at *
  exact le_trans hxy hyz

theorem pair_le_antisymm {β : Type*} [LinearOrder β] {M N : ℕ} (x y : β × Cell M N)
    (hxy : pair_le x y) (hyx : pair_le y x) : x = y := by
  rw [pair_le_iff_lexKey] at *
  exact lexKey_injective (le_antisymm hxy hyx)

theorem sorted_magnitude_indices_sorted {α β : Type*} [LinearOrder β] {M N : ℕ} (mag : α → β)
    (dft : Matrix (Fin M) (Fin N) α) :
    (sorted_magnitude_indices mag dft).Sorted pair_le := by
  haveI : IsTotal (β × Cell M N) pair_le := ⟨pair_le_total⟩
  haveI : IsTrans (β × Cell M N) pair_le := ⟨pair_le_trans⟩
  exact List.sorted_insertionSort pair_le _

theorem sorted_magnitude_indices_perm {α β : Type*} [LinearOrder β] {M N : ℕ} (mag : α → β)
    (dft : Matrix (Fin M) (Fin N) α) :
    (sorted_magnitude_indices mag dft).Perm (magnitude_indices mag dft) :=
  List.perm_insertionSort pair_le _

/-- Whatever algorithm `std::sort` runs, its result is the list of the model:
a rearrangement of `magnitude_indices` that is ascending for `operator<` is
`sorted_magnitude_indices`. -/
theorem sorted_magnitude_indices_unique {α β : Type*} [LinearOrder β] {M N : ℕ} (mag : α → β)
    (dft : Matrix (Fin M) (Fin N) α) (l : List (β × Cell M N))
    (hperm : l.Perm (magnitude_indices mag dft)) (hsorted : l.Sorted pair_le) :
    l = sorted_magnitude_indices mag dft := by
  haveI : IsAntisymm (β × Cell M N) pair_le := ⟨pair_le_antisymm⟩
  exact List.eq_of_perm_of_sorted (hperm.trans (sorted_magnitude_indices_perm mag dft).symm)
    hsorted (sorted_magnitude_indices_sorted mag dft)

theorem length_sorted_magnitude_indices {α β : Type*} [LinearOrder β] {M N : ℕ} (mag : α → β)
    (dft : Matrix (Fin M) (Fin N) α) :
    (sorted_magnitude_indices mag dft).length = M * N := by
  rw [(sorted_magnitude_indices_perm mag dft).length_eq, magnitude_indices, List.length_map,
    length_loopNest]

theorem mem_sorted_magnitude_indices {α β : Type*} [LinearOrder β] {M N : ℕ} (mag : α → β)
    (dft : Matrix (Fin M) (Fin N) α) (e : β × Cell M N) :
    e ∈ sorted_magnitude_indices mag dft ↔ e.1 = mag (dft e.2.1 e.2.2) := by
  rw [(sorted_magnitude_indices_perm mag dft).mem_iff, magnitude_indices, List.mem_map]
  constructor
  · rintro ⟨c, _, rfl⟩
    rfl
  · intro h
    exact ⟨e.2, mem_loopNest _, Prod.ext h.symm rfl⟩

theorem sorted_cells_nodup {α β : Type*} [LinearOrder β] {M N : ℕ} (mag : α → β)
    (dft : Matrix (Fin M) (Fin N) α) :
    ((sorted_magnitude_indices mag dft).map Prod.snd).Nodup := by
  have hp := (sorted_magnitude_indices_perm mag dft).map Prod.snd
  rw [hp.nodup_iff, magnitude_indices, List.map_map]
  have : (Prod.snd ∘ fun c : Cell M N => (mag (dft c.1 c.2), c)) = id := rfl
  rw [this, List.map_id]
  exact nodup_loopNest M N

theorem retained_cells_eq {α β : Type*} [LinearOrder β] {M N : ℕ} (mag : α → β)
    (dft : Matrix (Fin M) (Fin N) α) (f : ℚ) :
    retained_cells mag dft f = (kept_entries mag dft f).map Prod.snd := by
  simp only [retained_cells, compress_assignments, List.map_map]
  rfl

theorem kept_entries_sublist {α β : Type*} [LinearOrder β] {M N : ℕ} (mag : α → β)
    (dft : Matrix (Fin M) (Fin N) α) (f : ℚ) :
    (kept_entries mag dft f).Sublist (sorted_magnitude_indices mag dft) := by
  unfold kept_entries
  dsimp only
  split
  · exact List.nil_sublist _
  · exact List.drop_sublist _ _

theorem retained_cells_nodup {α β : Type*} [LinearOrder β] {M N : ℕ} (mag : α → β)
    (dft : Matrix (Fin M) (Fin N) α) (f : ℚ) : (retained_cells mag dft f).Nodup := by
  rw [retained_cells_eq]
  exact ((kept_entries_sublist mag dft f).map Prod.snd).nodup (sorted_cells_nodup mag dft)

/-! ## The rounding of the product `M * N * compression_rate` -/

theorem roundNearestEven_cases (y : ℚ) :
    roundNearestEven y = ⌊y⌋ ∨ (roundNearestEven y = ⌊y⌋ + 1 ∧ (1 / 2 : ℚ) ≤ y - ⌊y⌋) := by
  unfold roundNearestEven
  split_ifs with h1 h2 h3
  · exact Or.inl rfl
  · exact Or.inr ⟨rfl, h2.le⟩
  · exact Or.inl rfl
  · exact Or.inr ⟨rfl, not_lt.mp h1⟩

theorem le_roundNearestEven (y : ℚ) (m : ℤ) (h : (m : ℚ) ≤ y) : m ≤ roundNearestEven y := by
  have hfl : m ≤ ⌊y⌋ := Int.le_floor.mpr h
  rcases roundNearestEven_cases y with hc | ⟨hc, _⟩ <;> omega

theorem roundNearestEven_le (y : ℚ) (m : ℤ) (h : y ≤ (m : ℚ)) : roundNearestEven y ≤ m := by
  rcases roundNearestEven_cases y with hc | ⟨hc, hfrac⟩
  · rw [hc]
    have : (⌊y⌋ : ℚ) ≤ m := (Int.floor_le y).trans h
    exact_mod_cast this
  · rw [hc]
    have hlt : (⌊y⌋ : ℚ) < m := by linarith
    have : ⌊y⌋ < m := by exact_mod_cast hlt
    omega

theorem roundNearestEven_sub_le (y : ℚ) : (roundNearestEven y : ℚ) - y ≤ 1 / 2 := by
  have h1 := Int.floor_le y
  have h2 := Int.lt_floor_add_one y
  rcases roundNearestEven_cases y with hc | ⟨hc, hfrac⟩
  · rw [hc]; linarith
  · rw [hc]; push_cast; linarith

theorem binade_le (x : ℚ) : binade x ≤ 52 := by
  unfold binade
  exact max_le (by norm_num) (min_le_left _ _)

theorem ulp_eq (x : ℚ) : ∃ k : ℕ, ulp x = 1 / 2 ^ k := by
  refine ⟨(52 - binade x).toNat, ?_⟩
  have h := binade_le x
  have hk : binade x - 52 = -(((52 - binade x).toNat : ℕ) : ℤ) := by omega
  rw [ulp, hk, zpow_neg, zpow_natCast, one_div]

theorem div_grid (x : ℚ) (k : ℕ) : x / (1 / 2 ^ k) = x * 2 ^ k := by
  rw [div_div_eq_mul_div, div_one]

theorem le_to_double (x : ℚ) (m : ℤ) (h : (m : ℚ) ≤ x) : (m : ℚ) ≤ to_double x := by
  obtain ⟨k, hk⟩ := ulp_eq x
  have hpos : (0 : ℚ) < 2 ^ k := by positivity
  have hy : ((m * 2 ^ k : ℤ) : ℚ) ≤ x / (1 / 2 ^ k) := by
    rw [div_grid]
    push_cast
    exact mul_le_mul_of_nonneg_right h hpos.le
  have hr2 : ((m * 2 ^ k : ℤ) : ℚ) ≤ (roundNearestEven (x / (1 / 2 ^ k)) : ℚ) := by
    exact_mod_cast le_roundNearestEven _ _ hy
  rw [to_double, hk, mul_one_div, le_div_iff₀ hpos]
  push_cast at hr2
  exact hr2

theorem to_double_le (x : ℚ) (m : ℤ) (h : x ≤ (m : ℚ)) : to_double x ≤ (m : ℚ) := by
  obtain ⟨k, hk⟩ := ulp_eq x
  have hpos : (0 : ℚ) < 2 ^ k := by positivity
  have hy : x / (1 / 2 ^ k) ≤ ((m * 2 ^ k : ℤ) : ℚ) := by
    rw [div_grid]
    push_cast
    exact mul_le_mul_of_nonneg_right h hpos.le
  have hr2 : (roundNearestEven (x / (1 / 2 ^ k)) : ℚ) ≤ ((m * 2 ^ k : ℤ) : ℚ) := by
    exact_mod_cast roundNearestEven_le _ _ hy
  rw [to_double, hk, mul_one_div, div_le_iff₀ hpos]
  push_cast at hr2
  exact hr2

theorem to_double_intCast (n : ℤ) : to_double (n : ℚ) = (n : ℚ) :=
  le_antisymm (to_double_le _ n le_rfl) (le_to_double _ n le_rfl)

theorem to_double_sub_le (x : ℚ) : to_double x - x ≤ 1 / 2 := by
  obtain ⟨k, hk⟩ := ulp_eq x
  have hpos : (0 : ℚ) < 2 ^ k := by positivity
  have hone : (1 : ℚ) ≤ 2 ^ k := one_le_pow₀ (by norm_num)
  have hr := roundNearestEven_sub_le (x / (1 / 2 ^ k))
  have hxy := div_grid x k
  rw [to_double, hk, mul_one_div, sub_le_iff_le_add, div_le_iff₀ hpos]
  rw [hxy] at hr
  rw [hxy]
  nlinarith

theorem binade_eq (x : ℚ) (e : ℤ) (h1 : -1022 ≤ e) (h2 : e ≤ 52) (hlo : (2 : ℚ) ^ e ≤ |x|)
    (hhi : |x| < (2 : ℚ) ^ (e + 1)) : binade x = e := by
  have hpos : (0 : ℚ) < |x| := lt_of_lt_of_le (by positivity) hlo
  have hlog : Int.log 2 |x| = e := by
    apply le_antisymm
    · have := (Int.lt_zpow_iff_log_lt (by norm_num : 1 < 2) hpos).mp (by exact_mod_cast hhi)
      omega
    · exact (Int.zpow_le_iff_le_log (by norm_num : 1 < 2) hpos).mp (by exact_mod_cast hlo)
  rw [binade, hlog, min_eq_right h2, max_eq_right h1]

theorem to_double_eq (x : ℚ) (e z : ℤ) (h1 : -1022 ≤ e) (h2 : e ≤ 52) (hlo : (2 : ℚ) ^ e ≤ |x|)
    (hhi : |x| < (2 : ℚ) ^ (e + 1)) (hz : roundNearestEven (x / (2 : ℚ) ^ (e - 52)) = z) :
    to_double x = (z : ℚ) * (2 : ℚ) ^ (e - 52) := by
  rw [to_double, ulp, binade_eq x e h1 h2 hlo hhi, hz]

theorem roundNearestEven_of_lt_half (y : ℚ) (n : ℤ) (h1 : (n : ℚ) ≤ y) (h2 : y < n + 1 / 2) :
    roundNearestEven y = n := by
  have hfl : ⌊y⌋ = n := Int.floor_eq_iff.mpr ⟨h1, by linarith⟩
  unfold roundNearestEven
  rw [hfl, if_pos (by linarith)]

theorem roundNearestEven_of_gt_half (y : ℚ) (n : ℤ) (h1 : (n : ℚ) + 1 / 2 < y) (h2 : y < n + 1) :
    roundNearestEven y = n + 1 := by
  have hfl : ⌊y⌋ = n := Int.floor_eq_iff.mpr ⟨by linarith, h2⟩
  unfold roundNearestEven
  rw [hfl, if_neg (by linarith), if_pos (by linarith)]

theorem roundNearestEven_of_half_odd (y : ℚ) (n : ℤ) (h : y = n + 1 / 2) (hodd : n % 2 = 1) :
    roundNearestEven y = n + 1 := by
  have hfl : ⌊y⌋ = n := Int.floor_eq_iff.mpr ⟨by linarith, by linarith⟩
  unfold roundNearestEven
  rw [hfl, if_neg (by linarith), if_neg (by linarith), if_neg (by omega)]

/-- The `double` nearest to 0.7. -/
theorem to_double_seven_tenths : to_double (7 / 10) = 6305039478318694 / 2 ^ 53 := by
  rw [to_double_eq (7 / 10) (-1) 6305039478318694 (by norm_num) (by norm_num)
    (by rw [abs_of_pos (by norm_num)]; norm_num) (by rw [abs_of_pos (by norm_num)]; norm_num)
    (roundNearestEven_of_lt_half _ _ (by norm_num) (by norm_num))]
  norm_num

/-- Ten times the `double` nearest to 0.7 is a tie, which rounds up to 7. -/
theorem to_double_ten_times : to_double (10 * (6305039478318694 / 2 ^ 53)) = 7 := by
  rw [to_double_eq _ 2 7881299347898368 (by norm_num) (by norm_num)
    (by rw [abs_of_pos (by norm_num)]; norm_num) (by rw [abs_of_pos (by norm_num)]; norm_num)
    (roundNearestEven_of_half_odd _ 7881299347898367 (by norm_num) (by norm_num))]
  norm_num

theorem to_double_natCast (n : ℕ) : to_double (n : ℚ) = (n : ℚ) := by
  have h := to_double_intCast (n : ℤ)
  rwa [Int.cast_natCast] at h

theorem to_double_nonneg (x : ℚ) (hx : 0 ≤ x) : 0 ≤ to_double x := by
  have h := le_to_double x 0 (by simpa using hx)
  simpa using h

/-- The rounded product truncates to the floor of the exact product, or to the
next integer when the product rounds up to it. -/
theorem floor_to_double_bounds (x : ℚ) : ⌊x⌋ ≤ ⌊to_double x⌋ ∧ ⌊to_double x⌋ ≤ ⌈x⌉ := by
  constructor
  · exact Int.le_floor.mpr (le_to_double x _ (Int.floor_le x))
  · have h := to_double_le x _ (Int.le_ceil x)
    exact Int.floor_le_iff.mpr (lt_of_le_of_lt h (by linarith))

theorem truncToInt_of_nonneg (x : ℚ) (hx : 0 ≤ x) : truncToInt x = ⌊x⌋ := by
  simp [truncToInt, hx]

theorem floor_keep_bounds (n : ℕ) (f : ℚ) (h0 : 0 ≤ f) (h1 : f ≤ 1) :
    0 ≤ ⌊to_double ((n : ℚ) * f)⌋ ∧ ⌊to_double ((n : ℚ) * f)⌋ ≤ (n : ℤ) := by
  constructor
  · exact Int.floor_nonneg.mpr (to_double_nonneg _ (mul_nonneg (Nat.cast_nonneg _) h0))
  · have h2 : (n : ℚ) * f ≤ ((n : ℤ) : ℚ) := by
      rw [Int.cast_natCast]
      exact mul_le_of_le_one_right (Nat.cast_nonneg _) h1
    have h3 := to_double_le _ (n : ℤ) h2
    have h4 : ⌊to_double ((n : ℚ) * f)⌋ ≤ ⌊((n : ℤ) : ℚ)⌋ := Int.floor_le_floor h3
    rwa [Int.floor_intCast] at h4

/-- For a keep fraction in `[0, 1]` the last loop visits the last
`⌊to_double(M·N·f)⌋` entries of the sorted vector. -/
theorem kept_entries_of_unit_fraction {α β : Type*} [LinearOrder β] {M N : ℕ} (mag : α → β)
    (dft : Matrix (Fin M) (Fin N) α) (f : ℚ) (h0 : 0 ≤ f) (h1 : f ≤ 1) :
    kept_entries mag dft f =
      (sorted_magnitude_indices mag dft).drop
        (M * N - ⌊to_double (((M * N : ℕ) : ℚ) * f)⌋.toNat) := by
  have hx : 0 ≤ to_double (((M * N : ℕ) : ℚ) * f) :=
    to_double_nonneg _ (mul_nonneg (Nat.cast_nonneg _) h0)
  obtain ⟨hfl0, hfl1⟩ := floor_keep_bounds (M * N) f h0 h1
  unfold kept_entries
  dsimp only
  rw [length_sorted_magnitude_indices, keep_count, truncToInt_of_nonneg _ hx]
  rw [if_neg (by omega)]
  congr 1
  omega

theorem length_retained_cells {α β : Type*} [LinearOrder β] {M N : ℕ} (mag : α → β)
    (dft : Matrix (Fin M) (Fin N) α) (f : ℚ) (h0 : 0 ≤ f) (h1 : f ≤ 1) :
    ((retained_cells mag dft f).length : ℤ) = ⌊to_double (((M * N : ℕ) : ℚ) * f)⌋ := by
  obtain ⟨hfl0, hfl1⟩ := floor_keep_bounds (M * N) f h0 h1
  rw [retained_cells_eq, List.length_map, kept_entries_of_unit_fraction mag dft f h0 h1,
    List.length_drop, length_sorted_magnitude_indices]
  omega

theorem keep_count_of_nonneg (M N : ℕ) (f : ℚ) (h0 : 0 ≤ f) :
    keep_count M N f = ⌊to_double (((M * N : ℕ) : ℚ) * f)⌋ :=
  truncToInt_of_nonneg _ (to_double_nonneg _ (mul_nonneg (Nat.cast_nonneg _) h0))

/-- The truncated rounded product lies between the floor and the ceiling of the
exact product. -/
theorem keep_count_bounds (M N : ℕ) (f : ℚ) (h0 : 0 ≤ f) :
    ⌊((M * N : ℕ) : ℚ) * f⌋ ≤ keep_count M N f ∧
      keep_count M N f ≤ ⌈((M * N : ℕ) : ℚ) * f⌉ := by
  rw [keep_count_of_nonneg M N f h0]
  exact floor_to_double_bounds _

/-- The `double` nearest to 0.26. -/
theorem to_double_twenty_six_hundredths :
    to_double (26 / 100) = 4683743612465316 / 2 ^ 54 := by
  rw [to_double_eq (26 / 100) (-2) (4683743612465315 + 1) (by norm_num) (by norm_num)
    (by rw [abs_of_pos (by norm_num)]; norm_num) (by rw [abs_of_pos (by norm_num)]; norm_num)
    (roundNearestEven_of_gt_half _ _ (by norm_num) (by norm_num))]
  norm_num

/-- Ten times the `double` nearest to 0.26 is a `double`. -/
theorem to_double_ten_times_twenty_six :
    to_double (10 * (4683743612465316 / 2 ^ 54)) = 5854679515581645 / 2 ^ 51 := by
  rw [to_double_eq _ 1 5854679515581645 (by norm_num) (by norm_num)
    (by rw [abs_of_pos (by norm_num)]; norm_num) (by rw [abs_of_pos (by norm_num)]; norm_num)
    (roundNearestEven_of_lt_half _ _ (by norm_num) (by norm_num))]
  norm_num

/-- The `double` nearest to 0.58. -/
theorem to_double_fifty_eight_hundredths :
    to_double (58 / 100) = 5224175567749775 / 2 ^ 53 := by
  rw [to_double_eq (58 / 100) (-1) 5224175567749775 (by norm_num) (by norm_num)
    (by rw [abs_of_pos (by norm_num)]; norm_num) (by rw [abs_of_pos (by norm_num)]; norm_num)
    (roundNearestEven_of_lt_half _ _ (by norm_num) (by norm_num))]
  norm_num

/-- Fifty times the `double` nearest to 0.58 rounds to a `double` below 29. -/
theorem to_double_fifty_times :
    to_double (50 * (5224175567749775 / 2 ^ 53)) = 8162774324609023 / 2 ^ 48 := by
  rw [to_double_eq _ 4 8162774324609023 (by norm_num) (by norm_num)
    (by rw [abs_of_pos (by norm_num)]; norm_num) (by rw [abs_of_pos (by norm_num)]; norm_num)
    (roundNearestEven_of_lt_half _ _ (by norm_num) (by norm_num))]
  norm_num

/-- Two values of `keep_count` in which the rounding of the product shows: for
a 2 × 5 spectrum at the `double` 0.7 the product rounds up to 7.0, and for a
5 × 10 spectrum at the `double` 0.58 it stays below 29. -/
theorem keep_count_examples :
    keep_count 2 5 (to_double (7 / 10)) = 7 ∧ keep_count 5 10 (to_double (58 / 100)) = 28 := by
  constructor
  · rw [to_double_seven_tenths, keep_count_of_nonneg _ _ _ (by norm_num)]
    have hx : ((2 * 5 : ℕ) : ℚ) * (6305039478318694 / 2 ^ 53) =
        10 * (6305039478318694 / 2 ^ 53) := by norm_num
    rw [hx, to_double_ten_times, Int.floor_eq_iff]
    norm_num
  · rw [to_double_fifty_eight_hundredths, keep_count_of_nonneg _ _ _ (by norm_num)]
    have hx : ((5 * 10 : ℕ) : ℚ) * (5224175567749775 / 2 ^ 53) =
        50 * (5224175567749775 / 2 ^ 53) := by norm_num
    rw [hx, to_double_fifty_times, Int.floor_eq_iff]
    norm_num

theorem compress_img_of_mem {α β : Type*} [Zero α] [LinearOrder β] {M N : ℕ} (mag : α → β)
    (dft : Matrix (Fin M) (Fin N) α) (f : ℚ) (c : Cell M N)
    (hc : c ∈ retained_cells mag dft f) : compress_img mag dft f c.1 c.2 = dft c.1 c.2 := by
  refine runAssignments_of_mem _ 0 (retained_cells_nodup mag dft f) c _ ?_
  rw [retained_cells_eq, List.mem_map] at hc
  obtain ⟨e, he, rfl⟩ := hc
  exact List.mem_map.mpr ⟨e, he, rfl⟩

theorem compress_img_of_not_mem {α β : Type*} [Zero α] [LinearOrder β] {M N : ℕ} (mag : α → β)
    (dft : Matrix (Fin M) (Fin N) α) (f : ℚ) (c : Cell M N)
    (hc : c ∉ retained_cells mag dft f) : compress_img mag dft f c.1 c.2 = 0 :=
  runAssignments_of_not_mem _ 0 c hc

/-- The retained cells are the greatest ones: a discarded entry never has a
larger magnitude than a retained one. -/
theorem retained_magnitude_ge {α β : Type*} [LinearOrder β] {M N : ℕ} (mag : α → β)
    (dft : Matrix (Fin M) (Fin N) α) (f : ℚ) (c d : Cell M N)
    (hc : c ∈ retained_cells mag dft f) (hd : d ∉ retained_cells mag dft f) :
    mag (dft d.1 d.2) ≤ mag (dft c.1 c.2) := by
  rw [retained_cells_eq] at hc hd
  obtain ⟨e, he, rfl⟩ := List.mem_map.mp hc
  have he1 : e.1 = mag (dft e.2.1 e.2.2) :=
    (mem_sorted_magnitude_indices mag dft e).mp ((kept_entries_sublist mag dft f).subset he)
  have hdm : (mag (dft d.1 d.2), d) ∈ sorted_magnitude_indices mag dft :=
    (mem_sorted_magnitude_indices mag dft _).mpr rfl
  unfold kept_entries at he hd
  dsimp only at he hd
  split at he
  · simp at he
  · rename_i hstart
    rw [if_neg hstart] at hd
    rw [← List.take_append_drop
      ((↑(sorted_magnitude_indices mag dft).length - keep_count M N f).toNat)
      (sorted_magnitude_indices mag dft)] at hdm
    rcases List.mem_append.mp hdm with hdt | hdd
    · have hle := (sorted_magnitude_indices_sorted mag dft).rel_of_mem_take_of_mem_drop hdt he
      have hnot : ¬ e.1 < mag (dft d.1 d.2) := fun hlt => hle (Or.inl hlt)
      rw [← he1]
      exact not_lt.mp hnot
    · exact absurd (List.mem_map.mpr ⟨_, hdd, rfl⟩) hd

/-! ## The coefficient pruner -/

/-- C5: for every spectrum and every keep fraction, the magnitude of every
retained entry of `compress_img` (a cell whose input value is copied to the
output) is at least the magnitude of every discarded entry (a cell left at
zero). -/
theorem C5_retained_magnitude_ge_discarded {α β : Type*} [LinearOrder β] {M N : ℕ}
    (mag : α → β) (dft : Matrix (Fin M) (Fin N) α) (f : ℚ) (c d : Cell M N)
    (hc : c ∈ retained_cells mag dft f) (hd : d ∉ retained_cells mag dft f) :
    mag (dft d.1 d.2) ≤ mag (dft c.1 c.2) :=
  retained_magnitude_ge mag dft f c d hc hd

/-- The retained cells of the 1 × 2 complex spectrum `(0, 1)` at keep fraction
1/2: the cell `(0, 1)` only. -/
theorem retained_cells_example :
    retained_cells Complex.abs (!![0, 1] : Matrix (Fin 1) (Fin 2) ℂ) (1 / 2) = [(0, 1)] := by
  have hk : ⌊to_double (((1 * 2 : ℕ) : ℚ) * (1 / 2))⌋ = 1 := by
    have hx : ((1 * 2 : ℕ) : ℚ) * (1 / 2) = ((1 : ℤ) : ℚ) := by norm_num
    rw [hx, to_double_intCast, Int.floor_intCast]
  have hs : sorted_magnitude_indices Complex.abs (!![0, 1] : Matrix (Fin 1) (Fin 2) ℂ) =
      [(0, (0, 0)), (1, (0, 1))] := by
    symm
    apply sorted_magnitude_indices_unique
    · have : loopNest 1 2 = [(0, 0), (0, 1)] := by decide
      simp [magnitude_indices, this]
    · simp [List.Sorted, pair_le, pair_lt]
  rw [retained_cells_eq, kept_entries_of_unit_fraction _ _ _ (by norm_num) (by norm_num), hk, hs]
  rfl

/-- Witness for C5 on the 1 × 2 complex spectrum `(0, 1)` at keep fraction 1/2:
the cell `(0, 1)` is retained, the cell `(0, 0)` is discarded. -/
theorem C5_witness :
    ((0, 1) : Cell 1 2) ∈
      retained_cells Complex.abs (!![0, 1] : Matrix (Fin 1) (Fin 2) ℂ) (1 / 2) ∧
    ((0, 0) : Cell 1 2) ∉
      retained_cells Complex.abs (!![0, 1] : Matrix (Fin 1) (Fin 2) ℂ) (1 / 2) ∧
    Complex.abs ((!![0, 1] : Matrix (Fin 1) (Fin 2) ℂ) 0 0) ≤
      Complex.abs ((!![0, 1] : Matrix (Fin 1) (Fin 2) ℂ) 0 1) :=
  ⟨by rw [retained_cells_example]; decide, by rw [retained_cells_example]; decide,
    C5_retained_magnitude_ge_discarded Complex.abs (!![0, 1] : Matrix (Fin 1) (Fin 2) ℂ) (1 / 2)
      (0, 1) (0, 0) (by rw [retained_cells_example]; decide)
      (by rw [retained_cells_example]; decide)⟩

/-- C4 (amended): for every spectrum and every keep fraction `f` in `(0, 1]`,
`compress_img` copies the input value at exactly `keep_count` distinct cells,
where `keep_count` is the product `M·N·f` rounded to binary64 and then
truncated (it lies between `⌊M·N·f⌋` and `⌈M·N·f⌉`); it sets every other cell to
zero, and no discarded entry has a larger magnitude than a retained one. -/
theorem C4_compress_img_keeps_truncated_product {α β : Type*} [Zero α] [LinearOrder β]
    {M N : ℕ} (mag : α → β) (dft : Matrix (Fin M) (Fin N) α) (f : ℚ) (h0 : 0 < f)
    (h1 : f ≤ 1) :
    (retained_cells mag dft f).Nodup ∧
    ((retained_cells mag dft f).length : ℤ) = keep_count M N f ∧
    keep_count M N f = ⌊to_double (((M * N : ℕ) : ℚ) * f)⌋ ∧
    ⌊((M * N : ℕ) : ℚ) * f⌋ ≤ keep_count M N f ∧
    keep_count M N f ≤ ⌈((M * N : ℕ) : ℚ) * f⌉ ∧
    (∀ c ∈ retained_cells mag dft f, compress_img mag dft f c.1 c.2 = dft c.1 c.2) ∧
    (∀ c ∉ retained_cells mag dft f, compress_img mag dft f c.1 c.2 = 0) ∧
    (∀ c ∈ retained_cells mag dft f, ∀ d ∉ retained_cells mag dft f,
      mag (dft d.1 d.2) ≤ mag (dft c.1 c.2)) := by
  refine ⟨retained_cells_nodup mag dft f, ?_, keep_count_of_nonneg M N f h0.le,
    (keep_count_bounds M N f h0.le).1, (keep_count_bounds M N f h0.le).2,
    fun c hc => compress_img_of_mem mag dft f c hc,
    fun c hc => compress_img_of_not_mem mag dft f c hc,
    fun c hc d hd => retained_magnitude_ge mag dft f c d hc hd⟩
  rw [keep_count_of_nonneg M N f h0.le]
  exact length_retained_cells mag dft f h0.le h1

/-- Witness for C4 on a 2 × 5 complex spectrum at the keep fraction 0.26 (the
`double` nearest to it). -/
theorem C4_witness :
    (0 : ℚ) < to_double (26 / 100) ∧ to_double (26 / 100) ≤ 1 ∧
    ((retained_cells Complex.abs
      (!![1, 7, 3, 3, 0; 5, 3, 2, 9, 4] : Matrix (Fin 2) (Fin 5) ℂ)
      (to_double (26 / 100))).length : ℤ) = keep_count 2 5 (to_double (26 / 100)) :=
  ⟨by rw [to_double_twenty_six_hundredths]; norm_num,
    by rw [to_double_twenty_six_hundredths]; norm_num,
    (C4_compress_img_keeps_truncated_product Complex.abs
      (!![1, 7, 3, 3, 0; 5, 3, 2, 9, 4] : Matrix (Fin 2) (Fin 5) ℂ) (to_double (26 / 100))
      (by rw [to_double_twenty_six_hundredths]; norm_num)
      (by rw [to_double_twenty_six_hundredths]; norm_num)).2.1⟩

/-- C4 as stated fails: on a 2 × 5 complex spectrum at the keep fraction 0.26
(the `double` nearest to it) the value `round(M·N·f)` is 3 but `compress_img`
copies exactly 2 cells. -/
theorem C4_counterexample :
    round (((2 * 5 : ℕ) : ℚ) * to_double (26 / 100)) = 3 ∧
    (retained_cells Complex.abs
      (!![1, 7, 3, 3, 0; 5, 3, 2, 9, 4] : Matrix (Fin 2) (Fin 5) ℂ)
      (to_double (26 / 100))).length = 2 := by
  rw [to_double_twenty_six_hundredths]
  constructor
  · rw [round_eq, Int.floor_eq_iff]; norm_num
  · have h := length_retained_cells Complex.abs
      (!![1, 7, 3, 3, 0; 5, 3, 2, 9, 4] : Matrix (Fin 2) (Fin 5) ℂ)
      (4683743612465316 / 2 ^ 54) (by norm_num) (by norm_num)
    have hx : ((2 * 5 : ℕ) : ℚ) * (4683743612465316 / 2 ^ 54) =
        10 * (4683743612465316 / 2 ^ 54) := by norm_num
    have hk : ⌊(5854679515581645 / 2 ^ 51 : ℚ)⌋ = 2 := by
      rw [Int.floor_eq_iff]; norm_num
    rw [hx, to_double_ten_times_twenty_six, hk] at h
    exact_mod_cast h

/-! ## The transform matrices -/

/-- The two sign changes of `dft_matrix` cancel: its entry `(k, n)` is
`exp(+i·2π·k·n/N)`. -/
theorem dft_matrix_apply (N : ℕ) (k n : Fin N) :
    dft_matrix N k n =
      Complex.exp (Complex.I * ((2 * Real.pi * (k.val : ℝ) * (n.val : ℝ) / (N : ℝ) : ℝ) : ℂ)) := by
  simp only [dft_matrix, Matrix.of_apply]
  congr 1
  push_cast
  ring

theorem dft_matrix_eq_pow (N : ℕ) (k n : Fin N) :
    dft_matrix N k n = unitRoot N ^ (k.val * n.val) := by
  rw [dft_matrix_apply, unitRoot, ← Complex.exp_nat_mul]
  congr 1
  push_cast
  ring

theorem inverse_dft_matrix_eq_pow (N : ℕ) (k n : Fin N) :
    inverse_dft_matrix N k n = unitRoot N ^ (k.val * n.val) / (N : ℂ) := by
  simp only [inverse_dft_matrix, Matrix.of_apply]
  rw [unitRoot, ← Complex.exp_nat_mul]
  congr 2
  push_cast
  ring

theorem unitRoot_isPrimitiveRoot (N : ℕ) (hN : N ≠ 0) : IsPrimitiveRoot (unitRoot N) N :=
  Complex.isPrimitiveRoot_exp N hN

theorem unitRoot_pow_mod (N : ℕ) (hN : N ≠ 0) (r : ℕ) :
    unitRoot N ^ (r % N) = unitRoot N ^ r := by
  conv_rhs => rw [← Nat.mod_add_div r N]
  rw [pow_add, pow_mul, (unitRoot_isPrimitiveRoot N hN).pow_eq_one, one_pow, mul_one]

/-- Orthogonality of the powers of the root of unity. -/
theorem sum_unitRoot_pow (N : ℕ) (m : ℕ) :
    ∑ k : Fin N, unitRoot N ^ (k.val * m) = if N ∣ m then (N : ℂ) else 0 := by
  rcases Nat.eq_zero_or_pos N with h0 | hpos
  · subst h0
    simp
  have hN : N ≠ 0 := hpos.ne'
  have hz := unitRoot_isPrimitiveRoot N hN
  have hsum : ∑ k : Fin N, unitRoot N ^ (k.val * m) =
      ∑ k ∈ Finset.range N, (unitRoot N ^ m) ^ k := by
    rw [← Fin.sum_univ_eq_sum_range (fun k => (unitRoot N ^ m) ^ k) N]
    refine Finset.sum_congr rfl fun k _ => ?_
    rw [← pow_mul, Nat.mul_comm]
  rw [hsum]
  split_ifs with hd
  · have h1 : unitRoot N ^ m = 1 := (hz.pow_eq_one_iff_dvd m).mpr hd
    simp [h1]
  · have h1 : unitRoot N ^ m ≠ 1 := fun h => hd ((hz.pow_eq_one_iff_dvd m).mp h)
    rw [geom_sum_eq h1, ← pow_mul, Nat.mul_comm, pow_mul, hz.pow_eq_one, one_pow, sub_self,
      zero_div]

theorem add_mod_eq_zero_iff (n : ℕ) (i a : Fin n) :
    n ∣ i.val + a.val ↔ a = negIndex n i := by
  have hi := i.isLt
  have ha := a.isLt
  constructor
  · intro h
    apply Fin.ext
    simp only [negIndex]
    obtain ⟨q, hq⟩ := h
    have hq2 : q = 0 ∨ q = 1 := by
      rcases q with _ | _ | q
      · left; rfl
      · right; rfl
      · exfalso
        have : n * (q + 1 + 1) = n * q + n + n := by ring
        omega
    rcases hq2 with rfl | rfl
    · have hi0 : i.val = 0 := by omega
      have ha0 : a.val = 0 := by omega
      rw [hi0, ha0]
      simp
    · have : n - i.val = a.val := by omega
      rw [this, Nat.mod_eq_of_lt ha]
  · rintro rfl
    simp only [negIndex]
    rcases Nat.eq_zero_or_pos i.val with h0 | hpos
    · rw [h0]
      simp
    · rw [Nat.mod_eq_of_lt (by omega)]
      exact ⟨1, by omega⟩

/-- The product `inverse_dft_matrix(N) · dft_matrix(N)` is the permutation
matrix of index negation, not the identity. -/
theorem inverse_mul_dft_apply (N : ℕ) (i a : Fin N) :
    (inverse_dft_matrix N * dft_matrix N) i a = if a = negIndex N i then 1 else 0 := by
  have hN : (N : ℂ) ≠ 0 := Nat.cast_ne_zero.mpr (Nat.not_eq_zero_of_lt i.isLt)
  rw [Matrix.mul_apply]
  have hterm : ∀ k : Fin N, inverse_dft_matrix N i k * dft_matrix N k a =
      unitRoot N ^ (k.val * (i.val + a.val)) / (N : ℂ) := by
    intro k
    rw [inverse_dft_matrix_eq_pow, dft_matrix_eq_pow, div_mul_eq_mul_div, ← pow_add]
    congr 2
    ring
  rw [Finset.sum_congr rfl fun k _ => hterm k, ← Finset.sum_div, sum_unitRoot_pow]
  by_cases h : a = negIndex N i
  · rw [if_pos h, if_pos ((add_mod_eq_zero_iff N i a).mpr h), div_self hN]
  · rw [if_neg h, if_neg (fun hd => h ((add_mod_eq_zero_iff N i a).mp hd)), zero_div]

theorem dft_mul_inverse_apply (N : ℕ) (b j : Fin N) :
    (dft_matrix N * inverse_dft_matrix N) b j = if b = negIndex N j then 1 else 0 := by
  have hN : (N : ℂ) ≠ 0 := Nat.cast_ne_zero.mpr (Nat.not_eq_zero_of_lt j.isLt)
  rw [Matrix.mul_apply]
  have hterm : ∀ k : Fin N, dft_matrix N b k * inverse_dft_matrix N k j =
      unitRoot N ^ (k.val * (j.val + b.val)) / (N : ℂ) := by
    intro k
    rw [inverse_dft_matrix_eq_pow, dft_matrix_eq_pow, mul_div_assoc', ← pow_add]
    congr 2
    ring
  rw [Finset.sum_congr rfl fun k _ => hterm k, ← Finset.sum_div, sum_unitRoot_pow]
  by_cases h : b = negIndex N j
  · rw [if_pos h, if_pos ((add_mod_eq_zero_iff N j b).mpr h), div_self hN]
  · rw [if_neg h, if_neg (fun hd => h ((add_mod_eq_zero_iff N j b).mp hd)), zero_div]

/-- The raw reconstruction of a forward transform: the input with both
indices negated modulo the size. -/
theorem reconstructed_generate_dft {M N : ℕ} (X : Matrix (Fin M) (Fin N) ℝ)
    (i : Fin M) (j : Fin N) :
    reconstructed_complex (generate_dft X) i j = ((X (negIndex M i) (negIndex N j) : ℝ) : ℂ) := by
  have hassoc : reconstructed_complex (generate_dft X) =
      (inverse_dft_matrix M * dft_matrix M) *
        (Matrix.of fun a b => (⟨X a b, 0⟩ : ℂ)) * (dft_matrix N * inverse_dft_matrix N) := by
    simp only [reconstructed_complex, generate_dft, Matrix.mul_assoc]
  have hP : inverse_dft_matrix M * dft_matrix M =
      Matrix.of fun i a => if a = negIndex M i then (1 : ℂ) else 0 := by
    ext i a
    exact inverse_mul_dft_apply M i a
  have hQ : dft_matrix N * inverse_dft_matrix N =
      Matrix.of fun b j => if b = negIndex N j then (1 : ℂ) else 0 := by
    ext b j
    exact dft_mul_inverse_apply N b j
  rw [hassoc, hP, hQ]
  simp only [Matrix.mul_apply, Matrix.of_apply, ite_mul, one_mul, zero_mul, mul_ite, mul_one,
    mul_zero, Finset.sum_ite_eq, Finset.sum_ite_eq', Finset.mem_univ, if_true]
  rfl

/-- C6 at the failing input: the entry `(1, 1)` of `dft_matrix(4)` is `i`,
whereas `exp(−i·2π·1·1/4)` is `−i`. -/
theorem C6_dft_matrix_four_entry :
    dft_matrix 4 1 1 = Complex.I ∧
    Complex.exp (-(Complex.I * ((2 * Real.pi * 1 * 1 / 4 : ℝ) : ℂ))) = -Complex.I := by
  have hq : Complex.exp (((Real.pi / 2 : ℝ) : ℂ) * Complex.I) = Complex.I := by
    rw [Complex.exp_mul_I, ← Complex.ofReal_cos, ← Complex.ofReal_sin, Real.cos_pi_div_two,
      Real.sin_pi_div_two]
    simp
  constructor
  · rw [dft_matrix_apply]
    have h : Complex.I * ((2 * Real.pi * (((1 : Fin 4).val : ℕ) : ℝ) *
        (((1 : Fin 4).val : ℕ) : ℝ) / ((4 : ℕ) : ℝ) : ℝ) : ℂ) =
        ((Real.pi / 2 : ℝ) : ℂ) * Complex.I := by
      simp only [Fin.val_one]
      push_cast
      ring
    rw [h, hq]
  · have h : -(Complex.I * ((2 * Real.pi * 1 * 1 / 4 : ℝ) : ℂ)) =
        -(((Real.pi / 2 : ℝ) : ℂ) * Complex.I) := by
      push_cast
      ring
    rw [h, Complex.exp_neg, hq, Complex.inv_I]

/-- C2 at the failing input: for the 3 × 1 image with entries 0, 1, 2 the
product formed at the start of `apply_inverse_dft` has entries 0, 2, 1. -/
theorem C2_raw_reconstruction_three_rows :
    reconstructed_complex (generate_dft (!![0; 1; 2] : Matrix (Fin 3) (Fin 1) ℝ)) =
      !![0; 2; 1] := by
  ext i j
  rw [reconstructed_generate_dft]
  fin_cases i <;> fin_cases j <;> simp [negIndex]

/-! ## The normalizer -/

theorem DBL_MAX_pos : 0 < DBL_MAX := by
  unfold DBL_MAX
  norm_num

/-- A loop nest that assigns `v(i, j)` to the cell `(p i, q j)`, for injective
index maps, leaves `v(i, j)` there, whatever the matrix held before. -/
theorem nest_assign_apply {α : Type*} {M N : ℕ} (p : Fin M → Fin M) (q : Fin N → Fin N)
    (hp : Function.Injective p) (hq : Function.Injective q) (v : Cell M N → α)
    (uninit : Matrix (Fin M) (Fin N) α) (i : Fin M) (j : Fin N) :
    runAssignments uninit ((loopNest M N).map fun c => ((p c.1, q c.2), v c)) (p i) (q j) =
      v (i, j) := by
  refine runAssignments_of_mem _ uninit ?_ (p i, q j) (v (i, j)) ?_
  · rw [List.map_map]
    refine (nodup_loopNest M N).map ?_
    intro c d h
    exact Prod.ext (hp (congrArg Prod.fst h)) (hq (congrArg Prod.snd h))
  · exact List.mem_map.mpr ⟨(i, j), mem_loopNest _, rfl⟩

theorem rotated_rotated (n : ℕ) (i : Fin n) : rotated n (rotated n i) = i := by
  apply Fin.ext
  have := i.isLt
  simp only [rotated]
  omega

theorem rotated_injective (n : ℕ) : Function.Injective (rotated n) :=
  Function.LeftInverse.injective (rotated_rotated n)

theorem foldl_min_max_step (vals : List ℝ) (s : ℝ × ℝ) :
    vals.foldl min_max_step s = (vals.foldl min s.1, vals.foldl max s.2) := by
  induction vals generalizing s with
  | nil => rfl
  | cons v vals ih =>
    rw [List.foldl_cons, ih]
    rfl

theorem foldl_min_le (vals : List ℝ) (a : ℝ) :
    vals.foldl min a ≤ a ∧ ∀ v ∈ vals, vals.foldl min a ≤ v := by
  induction vals generalizing a with
  | nil => simp
  | cons w vals ih =>
    rw [List.foldl_cons]
    obtain ⟨h1, h2⟩ := ih (min a w)
    refine ⟨h1.trans (min_le_left _ _), ?_⟩
    intro v hv
    rcases List.mem_cons.mp hv with rfl | hv
    · exact h1.trans (min_le_right _ _)
    · exact h2 v hv

theorem foldl_min_mem (vals : List ℝ) (a : ℝ) :
    vals.foldl min a = a ∨ vals.foldl min a ∈ vals := by
  induction vals generalizing a with
  | nil => left; rfl
  | cons w vals ih =>
    rw [List.foldl_cons]
    rcases ih (min a w) with h | h
    · rcases min_choice a w with hc | hc
      · left; rw [h, hc]
      · right; rw [h, hc]; exact List.mem_cons_self _ _
    · right; exact List.mem_cons_of_mem _ h

theorem le_foldl_max (vals : List ℝ) (a : ℝ) :
    a ≤ vals.foldl max a ∧ ∀ v ∈ vals, v ≤ vals.foldl max a := by
  induction vals generalizing a with
  | nil => simp
  | cons w vals ih =>
    rw [List.foldl_cons]
    obtain ⟨h1, h2⟩ := ih (max a w)
    refine ⟨(le_max_left _ _).trans h1, ?_⟩
    intro v hv
    rcases List.mem_cons.mp hv with rfl | hv
    · exact (le_max_right _ _).trans h1
    · exact h2 v hv

theorem foldl_max_mem (vals : List ℝ) (a : ℝ) :
    vals.foldl max a = a ∨ vals.foldl max a ∈ vals := by
  induction vals generalizing a with
  | nil => left; rfl
  | cons w vals ih =>
    rw [List.foldl_cons]
    rcases ih (max a w) with h | h
    · rcases max_choice a w with hc | hc
      · left; rw [h, hc]
      · right; rw [h, hc]; exact List.mem_cons_self _ _
    · right; exact List.mem_cons_of_mem _ h

/-- When the matrix has a cell and every magnitude is in `double` range, the
first pass leaves in `min_val` the least magnitude of the matrix. -/
theorem min_val_isLeast {M N : ℕ} (R : Matrix (Fin M) (Fin N) ℂ) (c0 : Cell M N)
    (hfin : ∀ c : Cell M N, Complex.abs (R c.1 c.2) ≤ DBL_MAX) :
    IsLeast (Set.range fun c : Cell M N => Complex.abs (R c.1 c.2)) (min_max_pass R).1 := by
  have hmem : ∀ c : Cell M N, Complex.abs (R c.1 c.2) ∈
      (loopNest M N).map fun c => Complex.abs (R c.1 c.2) :=
    fun c => List.mem_map.mpr ⟨c, mem_loopNest c, rfl⟩
  rw [min_max_pass, foldl_min_max_step]
  obtain ⟨h1, h2⟩ := foldl_min_le ((loopNest M N).map fun c => Complex.abs (R c.1 c.2)) DBL_MAX
  constructor
  · rcases foldl_min_mem ((loopNest M N).map fun c => Complex.abs (R c.1 c.2)) DBL_MAX with h | h
    · refine ⟨c0, ?_⟩
      exact le_antisymm ((hfin c0).trans_eq h.symm) (h2 _ (hmem c0))
    · obtain ⟨c, _, hc⟩ := List.mem_map.mp h
      exact ⟨c, hc⟩
  · rintro _ ⟨c, rfl⟩
    exact h2 _ (hmem c)

/-- When the matrix has a cell, the first pass leaves in `max_val` the greatest
magnitude of the matrix. -/
theorem max_val_isGreatest {M N : ℕ} (R : Matrix (Fin M) (Fin N) ℂ) (c0 : Cell M N) :
    IsGreatest (Set.range fun c : Cell M N => Complex.abs (R c.1 c.2)) (min_max_pass R).2 := by
  have hmem : ∀ c : Cell M N, Complex.abs (R c.1 c.2) ∈
      (loopNest M N).map fun c => Complex.abs (R c.1 c.2) :=
    fun c => List.mem_map.mpr ⟨c, mem_loopNest c, rfl⟩
  rw [min_max_pass, foldl_min_max_step]
  obtain ⟨h1, h2⟩ := le_foldl_max ((loopNest M N).map fun c => Complex.abs (R c.1 c.2)) (-DBL_MAX)
  constructor
  · rcases foldl_max_mem ((loopNest M N).map fun c => Complex.abs (R c.1 c.2)) (-DBL_MAX)
      with h | h
    · exfalso
      have h3 := h2 _ (hmem c0)
      have h4 : (0 : ℝ) ≤ Complex.abs (R c0.1 c0.2) := by positivity
      have h5 := DBL_MAX_pos
      linarith
    · obtain ⟨c, _, hc⟩ := List.mem_map.mp h
      exact ⟨c, hc⟩
  · rintro _ ⟨c, rfl⟩
    exact h2 _ (hmem c)

/-- The second pass writes the normalised magnitude of `(i, j)` to the rotated
cell `(M − 1 − i, N − 1 − j)`. -/
theorem apply_inverse_dft_apply {M N : ℕ} (uninit : Matrix (Fin M) (Fin N) (Option ℝ))
    (S : Matrix (Fin M) (Fin N) ℂ) (i : Fin M) (j : Fin N) :
    apply_inverse_dft uninit S (rotated M i) (rotated N j) =
      fdiv (Complex.abs (reconstructed_complex S i j) - (min_max_pass (reconstructed_complex S)).1)
        ((min_max_pass (reconstructed_complex S)).2 - (min_max_pass (reconstructed_complex S)).1) :=
  nest_assign_apply (rotated M) (rotated N) (rotated_injective M) (rotated_injective N)
    (fun c => fdiv (Complex.abs (reconstructed_complex S c.1 c.2) -
      (min_max_pass (reconstructed_complex S)).1)
      ((min_max_pass (reconstructed_complex S)).2 - (min_max_pass (reconstructed_complex S)).1))
    uninit i j

/-- Every cell is a rotated cell. -/
theorem apply_inverse_dft_entry {M N : ℕ} (uninit : Matrix (Fin M) (Fin N) (Option ℝ))
    (S : Matrix (Fin M) (Fin N) ℂ) (a : Fin M) (b : Fin N) :
    apply_inverse_dft uninit S a b =
      fdiv (Complex.abs (reconstructed_complex S (rotated M a) (rotated N b)) -
        (min_max_pass (reconstructed_complex S)).1)
        ((min_max_pass (reconstructed_complex S)).2 - (min_max_pass (reconstructed_complex S)).1) := by
  have h := apply_inverse_dft_apply uninit S (rotated M a) (rotated N b)
  rwa [rotated_rotated, rotated_rotated] at h

/-- When all magnitudes of the reconstruction are equal, `range` is zero and
every entry of the result is the non-finite outcome of a division by zero. -/
theorem apply_inverse_dft_degenerate {M N : ℕ} (uninit : Matrix (Fin M) (Fin N) (Option ℝ))
    (S : Matrix (Fin M) (Fin N) ℂ)
    (hfin : ∀ c : Cell M N, Complex.abs (reconstructed_complex S c.1 c.2) ≤ DBL_MAX)
    (hall : ∀ c d : Cell M N, Complex.abs (reconstructed_complex S c.1 c.2) =
      Complex.abs (reconstructed_complex S d.1 d.2))
    (a : Fin M) (b : Fin N) : apply_inverse_dft uninit S a b = none := by
  obtain ⟨c, hc⟩ := (min_val_isLeast (reconstructed_complex S) (a, b) hfin).1
  obtain ⟨d, hd⟩ := (max_val_isGreatest (reconstructed_complex S) (a, b)).1
  have hzero : (min_max_pass (reconstructed_complex S)).2 -
      (min_max_pass (reconstructed_complex S)).1 = 0 := by
    rw [← hc, ← hd]
    exact sub_eq_zero.mpr (hall d c)
  rw [apply_inverse_dft_entry, hzero]
  simp [fdiv]

/-- C8 at the failing input: for the all-zero spectrum of any shape every entry
returned by `apply_inverse_dft` is the outcome of the division `0 / 0`: no
failure is raised and no zero is produced. -/
theorem C8_zero_spectrum_divides_by_zero {M N : ℕ} (uninit : Matrix (Fin M) (Fin N) (Option ℝ))
    (a : Fin M) (b : Fin N) :
    apply_inverse_dft uninit (0 : Matrix (Fin M) (Fin N) ℂ) a b = none := by
  have hR : reconstructed_complex (0 : Matrix (Fin M) (Fin N) ℂ) = 0 := by
    simp [reconstructed_complex]
  refine apply_inverse_dft_degenerate uninit 0 ?_ ?_ a b
  · intro c
    rw [hR]
    simpa using DBL_MAX_pos.le
  · intro c d
    rw [hR]
    rfl

/-- C10: when the least magnitude `mn` and the greatest magnitude `mx` of
`R = inverse_dft_matrix(M) · S · inverse_dft_matrix(N)` differ (and the
magnitudes are in `double` range), the entry of `apply_inverse_dft(S)` at
`(M − 1 − i, N − 1 − j)` is `(|R(i, j)| − mn) / (mx − mn)`. -/
theorem C10_apply_inverse_dft_rotated_entry {M N : ℕ}
    (uninit : Matrix (Fin M) (Fin N) (Option ℝ)) (S : Matrix (Fin M) (Fin N) ℂ) (mn mx : ℝ)
    (hmn : IsLeast (Set.range fun c : Cell M N =>
      Complex.abs ((inverse_dft_matrix M * S * inverse_dft_matrix N) c.1 c.2)) mn)
    (hmx : IsGreatest (Set.range fun c : Cell M N =>
      Complex.abs ((inverse_dft_matrix M * S * inverse_dft_matrix N) c.1 c.2)) mx)
    (hne : mx ≠ mn)
    (hfin : ∀ c : Cell M N,
      Complex.abs ((inverse_dft_matrix M * S * inverse_dft_matrix N) c.1 c.2) ≤ DBL_MAX)
    (i : Fin M) (j : Fin N) :
    apply_inverse_dft uninit S ⟨M - 1 - i.val, by have := i.isLt; omega⟩
        ⟨N - 1 - j.val, by have := j.isLt; omega⟩ =
      some ((Complex.abs ((inverse_dft_matrix M * S * inverse_dft_matrix N) i j) - mn) /
        (mx - mn)) := by
  have hmin : (min_max_pass (reconstructed_complex S)).1 = mn :=
    (min_val_isLeast (reconstructed_complex S) (i, j) hfin).unique hmn
  have hmax : (min_max_pass (reconstructed_complex S)).2 = mx :=
    (max_val_isGreatest (reconstructed_complex S) (i, j)).unique hmx
  have h := apply_inverse_dft_apply uninit S i j
  rw [hmin, hmax] at h
  rw [fdiv, if_neg (sub_ne_zero.mpr hne)] at h
  exact h

/-- C7: when the magnitudes of the reconstruction are not all equal (and are in
`double` range), every entry of `apply_inverse_dft(S)` is a number in `[0, 1]`,
the entry computed from a greatest magnitude is 1 and the entry computed from a
least magnitude is 0. -/
theorem C7_normalized_output_range {M N : ℕ} (uninit : Matrix (Fin M) (Fin N) (Option ℝ))
    (S : Matrix (Fin M) (Fin N) ℂ)
    (hfin : ∀ c : Cell M N, Complex.abs (reconstructed_complex S c.1 c.2) ≤ DBL_MAX)
    (hne : ∃ c d : Cell M N, Complex.abs (reconstructed_complex S c.1 c.2) ≠
      Complex.abs (reconstructed_complex S d.1 d.2)) :
    (∀ (a : Fin M) (b : Fin N), ∃ v : ℝ,
      apply_inverse_dft uninit S a b = some v ∧ 0 ≤ v ∧ v ≤ 1) ∧
    (∀ (i : Fin M) (j : Fin N),
      (∀ c : Cell M N, Complex.abs (reconstructed_complex S c.1 c.2) ≤
        Complex.abs (reconstructed_complex S i j)) →
      apply_inverse_dft uninit S ⟨M - 1 - i.val, by have := i.isLt; omega⟩
        ⟨N - 1 - j.val, by have := j.isLt; omega⟩ = some 1) ∧
    (∀ (i : Fin M) (j : Fin N),
      (∀ c : Cell M N, Complex.abs (reconstructed_complex S i j) ≤
        Complex.abs (reconstructed_complex S c.1 c.2)) →
      apply_inverse_dft uninit S ⟨M - 1 - i.val, by have := i.isLt; omega⟩
        ⟨N - 1 - j.val, by have := j.isLt; omega⟩ = some 0) := by
  obtain ⟨c0, d0, hcd⟩ := hne
  have hmin := min_val_isLeast (reconstructed_complex S) c0 hfin
  have hmax := max_val_isGreatest (reconstructed_complex S) c0
  have hlo : ∀ c : Cell M N, (min_max_pass (reconstructed_complex S)).1 ≤
      Complex.abs (reconstructed_complex S c.1 c.2) := fun c => hmin.2 ⟨c, rfl⟩
  have hhi : ∀ c : Cell M N, Complex.abs (reconstructed_complex S c.1 c.2) ≤
      (min_max_pass (reconstructed_complex S)).2 := fun c => hmax.2 ⟨c, rfl⟩
  have hpos : 0 < (min_max_pass (reconstructed_complex S)).2 -
      (min_max_pass (reconstructed_complex S)).1 := by
    rcases lt_or_gt_of_ne hcd with h | h
    · have := hlo c0
      have := hhi d0
      linarith
    · have := hlo d0
      have := hhi c0
      linarith
  refine ⟨?_, ?_, ?_⟩
  · intro a b
    rw [apply_inverse_dft_entry, fdiv, if_neg hpos.ne']
    refine ⟨_, rfl, ?_, ?_⟩
    · exact div_nonneg (sub_nonneg.mpr (hlo (rotated M a, rotated N b))) hpos.le
    · rw [div_le_one hpos]
      have := hhi (rotated M a, rotated N b)
      linarith
  · intro i j hij
    have h := apply_inverse_dft_apply uninit S i j
    rw [fdiv, if_neg hpos.ne'] at h
    have hmx : (min_max_pass (reconstructed_complex S)).2 =
        Complex.abs (reconstructed_complex S i j) := by
      obtain ⟨c, hc⟩ := hmax.1
      exact le_antisymm (hc ▸ hij c) (hhi (i, j))
    rw [← hmx, div_self hpos.ne'] at h
    exact h
  · intro i j hij
    have h := apply_inverse_dft_apply uninit S i j
    rw [fdiv, if_neg hpos.ne'] at h
    have hmn : (min_max_pass (reconstructed_complex S)).1 =
        Complex.abs (reconstructed_complex S i j) := by
      obtain ⟨c, hc⟩ := hmin.1
      exact le_antisymm (hlo (i, j)) (hc ▸ hij c)
    rw [← hmn, sub_self, zero_div] at h
    exact h

/-! ## The pipeline without pruning -/

/-- At keep fraction 1 every cell is retained. -/
theorem mem_retained_cells_one {α β : Type*} [LinearOrder β] {M N : ℕ} (mag : α → β)
    (dft : Matrix (Fin M) (Fin N) α) (c : Cell M N) : c ∈ retained_cells mag dft 1 := by
  rw [retained_cells_eq, kept_entries_of_unit_fraction mag dft 1 zero_le_one le_rfl]
  have hk : M * N - ⌊to_double (((M * N : ℕ) : ℚ) * 1)⌋.toNat = 0 := by
    rw [mul_one, to_double_natCast, Int.floor_natCast, Int.toNat_natCast, Nat.sub_self]
  rw [hk, List.drop_zero]
  exact List.mem_map.mpr ⟨(mag (dft c.1 c.2), c),
    (mem_sorted_magnitude_indices mag dft _).mpr rfl, rfl⟩

theorem compress_img_one {α β : Type*} [Zero α] [LinearOrder β] {M N : ℕ} (mag : α → β)
    (dft : Matrix (Fin M) (Fin N) α) : compress_img mag dft 1 = dft := by
  ext i j
  exact compress_img_of_mem mag dft 1 (i, j) (mem_retained_cells_one mag dft (i, j))

theorem unitRoot_pow_mul_mod (N : ℕ) (hN : N ≠ 0) (i r : ℕ) :
    unitRoot N ^ (i * (r % N)) = unitRoot N ^ (i * r) := by
  rw [Nat.mul_comm i, Nat.mul_comm i, pow_mul, pow_mul, unitRoot_pow_mod N hN]

theorem abs_unitRoot_pow (N : ℕ) (m : ℕ) : Complex.abs (unitRoot N ^ m) = 1 := by
  rw [map_pow, unitRoot, Complex.abs_exp]
  simp

theorem inverse_dft_matrix_wrap_right (N : ℕ) (s : ℕ) (i k : Fin N) :
    inverse_dft_matrix N i (wrapIndex N s k) =
      unitRoot N ^ (i.val * s) * inverse_dft_matrix N i k := by
  have hN : N ≠ 0 := Nat.not_eq_zero_of_lt i.isLt
  rw [inverse_dft_matrix_eq_pow, inverse_dft_matrix_eq_pow]
  simp only [wrapIndex]
  rw [unitRoot_pow_mul_mod N hN, Nat.mul_add, pow_add]
  ring

theorem inverse_dft_matrix_wrap_left (N : ℕ) (t : ℕ) (l j : Fin N) :
    inverse_dft_matrix N (wrapIndex N t l) j =
      unitRoot N ^ (j.val * t) * inverse_dft_matrix N l j := by
  have hN : N ≠ 0 := Nat.not_eq_zero_of_lt j.isLt
  rw [inverse_dft_matrix_eq_pow, inverse_dft_matrix_eq_pow]
  simp only [wrapIndex]
  rw [Nat.mul_comm _ j.val, unitRoot_pow_mul_mod N hN, Nat.mul_add, pow_add, Nat.mul_comm j.val l.val]
  ring

/-- A cyclic shift of the spectrum by `(s, t)` multiplies the entry `(i, j)` of
the raw reconstruction by a number of modulus one. -/
theorem reconstructed_complex_of_shift {M N : ℕ} (s t : ℕ) (S T : Matrix (Fin M) (Fin N) ℂ)
    (hT : ∀ (k : Fin M) (l : Fin N), T (wrapIndex M s k) (wrapIndex N t l) = S k l)
    (i : Fin M) (j : Fin N) :
    reconstructed_complex T i j =
      unitRoot M ^ (i.val * s) * unitRoot N ^ (j.val * t) * reconstructed_complex S i j := by
  simp only [reconstructed_complex, Matrix.mul_apply]
  rw [← (Equiv.ofBijective _ (wrapIndex_injective N t).bijective_of_finite).sum_comp]
  simp only [Equiv.ofBijective_apply]
  rw [Finset.mul_sum]
  refine Finset.sum_congr rfl fun l _ => ?_
  rw [← (Equiv.ofBijective _ (wrapIndex_injective M s).bijective_of_finite).sum_comp]
  simp only [Equiv.ofBijective_apply, hT, inverse_dft_matrix_wrap_right,
    inverse_dft_matrix_wrap_left]
  rw [Finset.sum_mul, Finset.sum_mul, Finset.mul_sum]
  refine Finset.sum_congr rfl fun k _ => ?_
  ring

theorem negIndex_negIndex (n : ℕ) (i : Fin n) : negIndex n (negIndex n i) = i := by
  have h : n ∣ (negIndex n i).val + i.val := by
    rw [Nat.add_comm]
    exact (add_mod_eq_zero_iff n i (negIndex n i)).mpr rfl
  exact ((add_mod_eq_zero_iff n (negIndex n i) i).mp h).symm

theorem negIndex_rotated (n : ℕ) (a : Fin n) : negIndex n (rotated n a) = wrapIndex n 1 a := by
  apply Fin.ext
  have := a.isLt
  simp only [negIndex, rotated, wrapIndex]
  congr 1
  omega

theorem one_le_DBL_MAX : 1 ≤ DBL_MAX := by
  unfold DBL_MAX
  norm_num

/-- Without pruning, for an image with values in `[0, 1]` that takes the values
0 and 1, the pipeline returns the image moved cyclically by one row and one
column: the entry `(a, b)` of the result is `X((a + 1) % M, (b + 1) % N)`. -/
theorem main_pipeline_no_pruning {M N : ℕ} (u1 u2 : Matrix (Fin M) (Fin N) ℂ)
    (u3 : Matrix (Fin M) (Fin N) (Option ℝ)) (X : Matrix (Fin M) (Fin N) ℝ)
    (h01 : ∀ (i : Fin M) (j : Fin N), 0 ≤ X i j ∧ X i j ≤ 1)
    (hzero : ∃ c : Cell M N, X c.1 c.2 = 0) (hone : ∃ c : Cell M N, X c.1 c.2 = 1)
    (a : Fin M) (b : Fin N) :
    main_pipeline u1 u2 u3 X 1 a b = some (X (wrapIndex M 1 a) (wrapIndex N 1 b)) := by
  have hmag : ∀ (i : Fin M) (j : Fin N),
      Complex.abs (reconstructed_complex
        (ifftshift u2 (compress_img Complex.abs (fftshift u1 (generate_dft X)) 1)) i j) =
      X (negIndex M i) (negIndex N j) := by
    intro i j
    rw [compress_img_one, reconstructed_complex_of_shift (M / 2 + M / 2 * 2) (N / 2 + N / 2 * 2)
      (generate_dft X) _ (ifftshift_fftshift_apply u1 u2 (generate_dft X)) i j,
      map_mul, map_mul, abs_unitRoot_pow, abs_unitRoot_pow, one_mul, one_mul,
      reconstructed_generate_dft, Complex.abs_ofReal, abs_of_nonneg (h01 _ _).1]
  have hfin : ∀ c : Cell M N, Complex.abs (reconstructed_complex
      (ifftshift u2 (compress_img Complex.abs (fftshift u1 (generate_dft X)) 1)) c.1 c.2) ≤
      DBL_MAX := fun c => by
    rw [hmag]
    exact (h01 _ _).2.trans one_le_DBL_MAX
  have hleast : IsLeast (Set.range fun c : Cell M N => Complex.abs (reconstructed_complex
      (ifftshift u2 (compress_img Complex.abs (fftshift u1 (generate_dft X)) 1)) c.1 c.2)) 0 := by
    obtain ⟨c, hc⟩ := hzero
    refine ⟨⟨(negIndex M c.1, negIndex N c.2), ?_⟩, ?_⟩
    · simp only [hmag, negIndex_negIndex, hc]
    · rintro _ ⟨d, rfl⟩
      exact AbsoluteValue.nonneg Complex.abs _
  have hgreatest : IsGreatest (Set.range fun c : Cell M N => Complex.abs (reconstructed_complex
      (ifftshift u2 (compress_img Complex.abs (fftshift u1 (generate_dft X)) 1)) c.1 c.2)) 1 := by
    obtain ⟨c, hc⟩ := hone
    refine ⟨⟨(negIndex M c.1, negIndex N c.2), ?_⟩, ?_⟩
    · simp only [hmag, negIndex_negIndex, hc]
    · rintro _ ⟨d, rfl⟩
      simp only [hmag]
      exact (h01 _ _).2
  have hmin := (min_val_isLeast _ (a, b) hfin).unique hleast
  have hmax := (max_val_isGreatest (reconstructed_complex
      (ifftshift u2 (compress_img Complex.abs (fftshift u1 (generate_dft X)) 1))) (a, b)).unique
      hgreatest
  unfold main_pipeline
  rw [apply_inverse_dft_entry, hmin, hmax, hmag, negIndex_rotated, negIndex_rotated]
  simp [fdiv]

/-- C3 at the failing input: without pruning, the pipeline maps the 2 × 1 image
with entries 0, 1 to the image with entries 1, 0. -/
theorem C3_pipeline_two_rows (u1 u2 : Matrix (Fin 2) (Fin 1) ℂ)
    (u3 : Matrix (Fin 2) (Fin 1) (Option ℝ)) :
    main_pipeline u1 u2 u3 (!![0; 1] : Matrix (Fin 2) (Fin 1) ℝ) 1 = !![some 1; some 0] := by
  ext i j : 2
  rw [main_pipeline_no_pruning u1 u2 u3 _ ?_ ⟨(0, 0), rfl⟩ ⟨(1, 0), rfl⟩]
  · fin_cases i <;> fin_cases j <;> simp [wrapIndex]
  · intro i j
    fin_cases i <;> fin_cases j <;> simp

/-! ## A sample spectrum with two different reconstruction magnitudes -/

theorem sample_reconstruction : reconstructed_complex sample_spectrum = !![0, 1] := by
  ext i j
  rw [sample_spectrum, reconstructed_generate_dft]
  fin_cases i
  fin_cases j <;> simp [negIndex]

theorem sample_fin (c : Cell 1 2) :
    Complex.abs (reconstructed_complex sample_spectrum c.1 c.2) ≤ DBL_MAX := by
  obtain ⟨i, j⟩ := c
  rw [sample_reconstruction]
  fin_cases i
  fin_cases j
  · simpa using DBL_MAX_pos.le
  · simpa using one_le_DBL_MAX

theorem sample_ne : ∃ c d : Cell 1 2,
    Complex.abs (reconstructed_complex sample_spectrum c.1 c.2) ≠
      Complex.abs (reconstructed_complex sample_spectrum d.1 d.2) := by
  refine ⟨(0, 0), (0, 1), ?_⟩
  rw [sample_reconstruction]
  simp

theorem sample_isLeast : IsLeast (Set.range fun c : Cell 1 2 =>
    Complex.abs (reconstructed_complex sample_spectrum c.1 c.2)) 0 := by
  refine ⟨⟨(0, 0), ?_⟩, ?_⟩
  · rw [sample_reconstruction]
    simp
  · rintro _ ⟨c, rfl⟩
    exact AbsoluteValue.nonneg Complex.abs _

theorem sample_isGreatest : IsGreatest (Set.range fun c : Cell 1 2 =>
    Complex.abs (reconstructed_complex sample_spectrum c.1 c.2)) 1 := by
  refine ⟨⟨(0, 1), ?_⟩, ?_⟩
  · rw [sample_reconstruction]
    simp
  · rintro _ ⟨⟨i, j⟩, rfl⟩
    rw [sample_reconstruction]
    fin_cases i
    fin_cases j <;> simp

/-- Witness for C10 on the spectrum of the 1 × 2 image `(0, 1)`, whose
reconstruction magnitudes are 0 and 1. -/
theorem C10_witness :
    IsLeast (Set.range fun c : Cell 1 2 => Complex.abs
      ((inverse_dft_matrix 1 * sample_spectrum * inverse_dft_matrix 2) c.1 c.2)) 0 ∧
    IsGreatest (Set.range fun c : Cell 1 2 => Complex.abs
      ((inverse_dft_matrix 1 * sample_spectrum * inverse_dft_matrix 2) c.1 c.2)) 1 ∧
    (1 : ℝ) ≠ 0 ∧
    (∀ c : Cell 1 2, Complex.abs
      ((inverse_dft_matrix 1 * sample_spectrum * inverse_dft_matrix 2) c.1 c.2) ≤ DBL_MAX) ∧
    apply_inverse_dft (fun _ _ => none) sample_spectrum 0 0 =
      some ((Complex.abs
        ((inverse_dft_matrix 1 * sample_spectrum * inverse_dft_matrix 2) 0 1) - 0) / (1 - 0)) :=
  ⟨sample_isLeast, sample_isGreatest, one_ne_zero, sample_fin,
    C10_apply_inverse_dft_rotated_entry (fun _ _ => none) sample_spectrum 0 1
      sample_isLeast sample_isGreatest one_ne_zero sample_fin 0 1⟩

/-- Witness for C7 on the spectrum of the 1 × 2 image `(0, 1)`. -/
theorem C7_witness :
    (∀ c : Cell 1 2, Complex.abs (reconstructed_complex sample_spectrum c.1 c.2) ≤ DBL_MAX) ∧
    (∃ c d : Cell 1 2, Complex.abs (reconstructed_complex sample_spectrum c.1 c.2) ≠
      Complex.abs (reconstructed_complex sample_spectrum d.1 d.2)) ∧
    ∃ v : ℝ, apply_inverse_dft (fun _ _ => none) sample_spectrum 0 1 = some v ∧ 0 ≤ v ∧ v ≤ 1 :=
  ⟨sample_fin, sample_ne,
    (C7_normalized_output_range (fun _ _ => none) sample_spectrum sample_fin sample_ne).1 0 1⟩

/-! ## Further properties of the coefficient pruner -/

/-- C11: at keep fraction 1.0 `compress_img` returns its input, entry for
entry. -/
theorem C11_compress_img_one_is_input {M N : ℕ} (X : Matrix (Fin M) (Fin N) ℂ)
    (i : Fin M) (j : Fin N) : compress_img Complex.abs X 1 i j = X i j := by
  rw [compress_img_one]

theorem round_eq_zero_floor (x : ℚ) (hx : 0 ≤ x) (hr : round x = 0) : ⌊x⌋ = 0 := by
  rw [round_eq, Int.floor_eq_iff] at hr
  rw [Int.floor_eq_iff]
  constructor
  · simpa using hx
  · have := hr.2
    push_cast at this ⊢
    linarith

theorem round_eq_zero_lt_half (x : ℚ) (hr : round x = 0) : x < 1 / 2 := by
  rw [round_eq, Int.floor_eq_iff] at hr
  have := hr.2
  push_cast at this
  linarith

/-- When `keep_count` is zero the last loop does not run. -/
theorem kept_entries_of_keep_count_zero {α β : Type*} [LinearOrder β] {M N : ℕ} (mag : α → β)
    (dft : Matrix (Fin M) (Fin N) α) (f : ℚ) (hk : keep_count M N f = 0) :
    kept_entries mag dft f = [] := by
  unfold kept_entries
  dsimp only
  rw [hk, sub_zero, if_neg (by omega), Int.toNat_natCast, List.drop_length]

/-- C12: for every keep fraction `f ≥ 0` with `round(M·N·f) = 0`, `compress_img`
returns the all-zero matrix. -/
theorem C12_compress_img_keeps_nothing {M N : ℕ} (X : Matrix (Fin M) (Fin N) ℂ) (f : ℚ)
    (h0 : 0 ≤ f) (hr : round (((M * N : ℕ) : ℚ) * f) = 0) :
    compress_img Complex.abs X f = 0 := by
  have hx : 0 ≤ ((M * N : ℕ) : ℚ) * f := mul_nonneg (Nat.cast_nonneg _) h0
  have hk : keep_count M N f = 0 := by
    have hlt := round_eq_zero_lt_half _ hr
    have hd0 := to_double_nonneg _ hx
    have hd1 := to_double_sub_le (((M * N : ℕ) : ℚ) * f)
    rw [keep_count, truncToInt_of_nonneg _ hd0, Int.floor_eq_iff]
    constructor
    · simpa using hd0
    · rw [Int.cast_zero]
      linarith
  ext i j
  have hnot : (i, j) ∉ retained_cells Complex.abs X f := by
    rw [retained_cells_eq, kept_entries_of_keep_count_zero _ _ _ hk]
    simp
  exact compress_img_of_not_mem Complex.abs X f (i, j) hnot

/-- Witness for C12 on a 2 × 5 complex spectrum at keep fraction 0.01, the one
used by `main`. -/
theorem C12_witness :
    (0 : ℚ) ≤ 1 / 100 ∧ round (((2 * 5 : ℕ) : ℚ) * (1 / 100)) = 0 ∧
    compress_img Complex.abs
      (!![1, 7, 3, 3, 0; 5, 3, 2, 9, 4] : Matrix (Fin 2) (Fin 5) ℂ) (1 / 100) = 0 :=
  ⟨by norm_num, by rw [round_eq, Int.floor_eq_iff]; norm_num,
    C12_compress_img_keeps_nothing _ (1 / 100) (by norm_num)
      (by rw [round_eq, Int.floor_eq_iff]; norm_num)⟩

/-- C13: for every keep fraction, the matrix returned by `compress_img` has the
shape of its input and each of its entries is either 0 or the input entry at
the same position. -/
theorem C13_compress_img_only_zeroes {M N : ℕ} (X : Matrix (Fin M) (Fin N) ℂ) (f : ℚ)
    (i : Fin M) (j : Fin N) :
    compress_img Complex.abs X f i j = 0 ∨ compress_img Complex.abs X f i j = X i j := by
  by_cases h : (i, j) ∈ retained_cells Complex.abs X f
  · right
    exact compress_img_of_mem Complex.abs X f (i, j) h
  · left
    exact compress_img_of_not_mem Complex.abs X f (i, j) h

/-- In the sorted vector a discarded entry stands before every retained one. -/
theorem discarded_pair_le_retained {α β : Type*} [LinearOrder β] {M N : ℕ} (mag : α → β)
    (dft : Matrix (Fin M) (Fin N) α) (f : ℚ) (c d : Cell M N)
    (hc : c ∈ retained_cells mag dft f) (hd : d ∉ retained_cells mag dft f) :
    pair_le (mag (dft d.1 d.2), d) (mag (dft c.1 c.2), c) := by
  rw [retained_cells_eq] at hc hd
  obtain ⟨e, he, rfl⟩ := List.mem_map.mp hc
  have he1 : e.1 = mag (dft e.2.1 e.2.2) :=
    (mem_sorted_magnitude_indices mag dft e).mp ((kept_entries_sublist mag dft f).subset he)
  have hee : (mag (dft e.2.1 e.2.2), e.2) = e := Prod.ext he1.symm rfl
  have hdm : (mag (dft d.1 d.2), d) ∈ sorted_magnitude_indices mag dft :=
    (mem_sorted_magnitude_indices mag dft _).mpr rfl
  unfold kept_entries at he hd
  dsimp only at he hd
  split at he
  · simp at he
  · rename_i hstart
    rw [if_neg hstart] at hd
    rw [← List.take_append_drop
      ((↑(sorted_magnitude_indices mag dft).length - keep_count M N f).toNat)
      (sorted_magnitude_indices mag dft)] at hdm
    rcases List.mem_append.mp hdm with hdt | hdd
    · rw [hee]
      exact (sorted_magnitude_indices_sorted mag dft).rel_of_mem_take_of_mem_drop hdt he
    · exact absurd (List.mem_map.mpr ⟨_, hdd, rfl⟩) hd

/-- A rearrangement of `magnitude_indices` that is ascending for the
lexicographic order of the tuples is the vector left by `std::sort`. -/
theorem eq_sorted_of_lex_sorted {α β : Type*} [LinearOrder β] {M N : ℕ} (mag : α → β)
    (dft : Matrix (Fin M) (Fin N) α) (l : List (β × Cell M N))
    (hperm : l.Perm (magnitude_indices mag dft))
    (hsorted : l.Sorted fun x y => lexKey x ≤ lexKey y) :
    l = sorted_magnitude_indices mag dft := by
  refine sorted_magnitude_indices_unique mag dft l hperm ?_
  exact List.Pairwise.imp (fun h => (pair_le_iff_lexKey _ _).mpr h) hsorted

/-- C17 (amended): for every spectrum and every keep fraction in `(0, 1]`, the
retained cells are the cells of the last `keep_count` elements of the list of
`(magnitude, (row, column))` tuples sorted ascending lexicographically, where
`keep_count` is the product `M·N·f` rounded to binary64 and then truncated (it
lies between `⌊M·N·f⌋` and `⌈M·N·f⌉`); hence of two entries of equal magnitude of
which exactly one is retained, the retained one has the lexicographically
greater `(row, column)`. -/
theorem C17_ties_broken_by_position {α β : Type*} [LinearOrder β] {M N : ℕ} (mag : α → β)
    (dft : Matrix (Fin M) (Fin N) α) (f : ℚ) (h0 : 0 < f) (h1 : f ≤ 1) :
    (∀ l : List (β × Cell M N), l.Perm (magnitude_indices mag dft) →
      (l.Sorted fun x y => lexKey x ≤ lexKey y) →
      retained_cells mag dft f =
        (l.drop (l.length - (keep_count M N f).toNat)).map Prod.snd) ∧
    (keep_count M N f = ⌊to_double (((M * N : ℕ) : ℚ) * f)⌋ ∧
      ⌊((M * N : ℕ) : ℚ) * f⌋ ≤ keep_count M N f ∧
      keep_count M N f ≤ ⌈((M * N : ℕ) : ℚ) * f⌉) ∧
    (∀ c d : Cell M N, c ∈ retained_cells mag dft f → d ∉ retained_cells mag dft f →
      mag (dft c.1 c.2) = mag (dft d.1 d.2) →
      d.1 < c.1 ∨ (d.1 = c.1 ∧ d.2 < c.2)) := by
  refine ⟨?_, ⟨keep_count_of_nonneg M N f h0.le, (keep_count_bounds M N f h0.le).1,
    (keep_count_bounds M N f h0.le).2⟩, ?_⟩
  · intro l hperm hsorted
    rw [eq_sorted_of_lex_sorted mag dft l hperm hsorted, length_sorted_magnitude_indices,
      retained_cells_eq, kept_entries_of_unit_fraction mag dft f h0.le h1,
      keep_count_of_nonneg M N f h0.le]
  · intro c d hc hd hmag
    have hle := discarded_pair_le_retained mag dft f c d hc hd
    rw [pair_le_iff_lexKey] at hle
    have hne : d ≠ c := fun h => hd (h ▸ hc)
    simp only [lexKey, Prod.Lex.le_iff, ofLex_toLex, hmag, lt_irrefl, true_and, false_or] at hle
    rcases hle with hrow | ⟨hrow, hcol⟩
    · exact Or.inl hrow
    · exact Or.inr ⟨hrow, lt_of_le_of_ne hcol fun h => hne (Prod.ext hrow h)⟩

/-- C17 as stated fails: on a 2 × 5 complex spectrum at the keep fraction 0.7
(the `double` nearest to it) the value `⌊M·N·f⌋` is 6, but the product rounds to
7.0 and `compress_img` retains 7 cells. -/
theorem C17_counterexample :
    ⌊((2 * 5 : ℕ) : ℚ) * to_double (7 / 10)⌋ = 6 ∧
    (retained_cells Complex.abs
      (!![1, 7, 3, 3, 0; 5, 3, 2, 9, 4] : Matrix (Fin 2) (Fin 5) ℂ)
      (to_double (7 / 10))).length = 7 := by
  rw [to_double_seven_tenths]
  constructor
  · rw [Int.floor_eq_iff]; norm_num
  · have h := length_retained_cells Complex.abs
      (!![1, 7, 3, 3, 0; 5, 3, 2, 9, 4] : Matrix (Fin 2) (Fin 5) ℂ)
      (6305039478318694 / 2 ^ 53) (by norm_num) (by norm_num)
    have hx : ((2 * 5 : ℕ) : ℚ) * (6305039478318694 / 2 ^ 53) =
        10 * (6305039478318694 / 2 ^ 53) := by norm_num
    have hk : ⌊(7 : ℚ)⌋ = 7 := Int.floor_eq_iff.mpr ⟨by norm_num, by norm_num⟩
    rw [hx, to_double_ten_times, hk] at h
    exact_mod_cast h

/-- The retained cells of the 1 × 2 complex spectrum `(1, 1)` at keep fraction
1/2: the cell `(0, 1)` only. -/
theorem retained_cells_tie_example :
    retained_cells Complex.abs (!![1, 1] : Matrix (Fin 1) (Fin 2) ℂ) (1 / 2) = [(0, 1)] := by
  have hk : ⌊to_double (((1 * 2 : ℕ) : ℚ) * (1 / 2))⌋ = 1 := by
    have hx : ((1 * 2 : ℕ) : ℚ) * (1 / 2) = ((1 : ℤ) : ℚ) := by norm_num
    rw [hx, to_double_intCast, Int.floor_intCast]
  have hs : sorted_magnitude_indices Complex.abs (!![1, 1] : Matrix (Fin 1) (Fin 2) ℂ) =
      [(1, (0, 0)), (1, (0, 1))] := by
    symm
    apply sorted_magnitude_indices_unique
    · have : loopNest 1 2 = [(0, 0), (0, 1)] := by decide
      simp [magnitude_indices, this]
    · simp [List.Sorted, pair_le, pair_lt]
  rw [retained_cells_eq, kept_entries_of_unit_fraction _ _ _ (by norm_num) (by norm_num), hk, hs]
  rfl

/-- Witness for C17 on the 1 × 2 complex spectrum `(1, 1)` at keep fraction 1/2:
of the two entries of equal magnitude the one in column 1 is retained. -/
theorem C17_witness :
    (0 : ℚ) < 1 / 2 ∧ (1 / 2 : ℚ) ≤ 1 ∧
    (((0, 0) : Cell 1 2).1 < ((0, 1) : Cell 1 2).1 ∨
      (((0, 0) : Cell 1 2).1 = ((0, 1) : Cell 1 2).1 ∧
        ((0, 0) : Cell 1 2).2 < ((0, 1) : Cell 1 2).2)) :=
  ⟨by norm_num, by norm_num,
    (C17_ties_broken_by_position Complex.abs (!![1, 1] : Matrix (Fin 1) (Fin 2) ℂ) (1 / 2)
      (by norm_num) (by norm_num)).2.2 (0, 1) (0, 0)
      (by rw [retained_cells_tie_example]; decide)
      (by rw [retained_cells_tie_example]; decide) (by simp)⟩

/-- The number of retained cells depends on the shape and the keep fraction
only. -/
theorem length_retained_cells_eq {α β γ δ : Type*} [LinearOrder β] [LinearOrder δ] {M N : ℕ}
    (mag : α → β) (mag2 : γ → δ) (X : Matrix (Fin M) (Fin N) α) (Y : Matrix (Fin M) (Fin N) γ)
    (f : ℚ) : (retained_cells mag X f).length = (retained_cells mag2 Y f).length := by
  rw [retained_cells_eq, retained_cells_eq, List.length_map, List.length_map]
  unfold kept_entries
  dsimp only
  rw [length_sorted_magnitude_indices, length_sorted_magnitude_indices]
  split
  · rfl
  · rw [List.length_drop, List.length_drop, length_sorted_magnitude_indices,
      length_sorted_magnitude_indices]

/-- When zero has the least magnitude and no other value shares it, pruning a
pruned matrix again changes nothing. -/
theorem compress_img_idempotent_of_mag {α β : Type*} [Zero α] [LinearOrder β] {M N : ℕ}
    (mag : α → β) (hmag : ∀ z : α, z ≠ 0 → mag 0 < mag z)
    (X : Matrix (Fin M) (Fin N) α) (f : ℚ) :
    compress_img mag (compress_img mag X f) f = compress_img mag X f := by
  ext i j
  by_cases h : (i, j) ∈ retained_cells mag (compress_img mag X f) f
  · exact compress_img_of_mem mag _ f (i, j) h
  · rw [compress_img_of_not_mem mag _ f (i, j) h]
    by_contra hne
    have hne2 : compress_img mag X f i j ≠ 0 := fun h0 => hne h0.symm
    have hci : (i, j) ∈ retained_cells mag X f := by
      by_contra hno
      exact hne2 (compress_img_of_not_mem mag X f (i, j) hno)
    have hsub : ∀ t ∈ retained_cells mag (compress_img mag X f) f,
        t ∈ retained_cells mag X f := by
      intro t ht
      by_contra hno
      have hz : compress_img mag X f t.1 t.2 = 0 := compress_img_of_not_mem mag X f t hno
      have hle := retained_magnitude_ge mag (compress_img mag X f) f t (i, j) ht h
      rw [hz] at hle
      exact absurd (hmag _ hne2) (not_lt.mpr hle)
    have hperm := (List.subperm_of_subset (retained_cells_nodup mag (compress_img mag X f) f)
      hsub).perm_of_length_le (length_retained_cells_eq mag mag X (compress_img mag X f) f).le
    exact h (hperm.mem_iff.mpr hci)

/-- C20: for every complex spectrum and every keep fraction, pruning the pruned
spectrum again at the same keep fraction returns the pruned spectrum, entry for
entry, also when magnitudes tie. -/
theorem C20_compress_img_idempotent {M N : ℕ} (X : Matrix (Fin M) (Fin N) ℂ) (f : ℚ)
    (i : Fin M) (j : Fin N) :
    compress_img Complex.abs (compress_img Complex.abs X f) f i j =
      compress_img Complex.abs X f i j := by
  have hmag : ∀ z : ℂ, z ≠ 0 → Complex.abs 0 < Complex.abs z := by
    intro z hz
    rw [map_zero]
    exact AbsoluteValue.pos Complex.abs hz
  rw [compress_img_idempotent_of_mag Complex.abs hmag X f]

/-! ## Further properties of the transform and of the shifter -/

/-- C18: for every real image `X`, the raw reconstruction
`inverse_dft_matrix(M) · generate_dft(X) · inverse_dft_matrix(N)` has entry
`(i, j)` equal to `X((M − i) mod M, (N − j) mod N)`; `dft_matrix` and
`inverse_dft_matrix` have the same exponent sign: `dft_matrix(n)` is `n` times
`inverse_dft_matrix(n)`. -/
theorem C18_raw_reconstruction_negates_indices {M N : ℕ} (X : Matrix (Fin M) (Fin N) ℝ) :
    (∀ (i : Fin M) (j : Fin N),
      (inverse_dft_matrix M * generate_dft X * inverse_dft_matrix N) i j =
        ((X ⟨(M - i.val) % M, Nat.mod_lt _ i.pos⟩ ⟨(N - j.val) % N, Nat.mod_lt _ j.pos⟩ : ℝ) : ℂ)) ∧
    (∀ (n : ℕ) (k l : Fin n), dft_matrix n k l = (n : ℂ) * inverse_dft_matrix n k l) := by
  constructor
  · intro i j
    exact reconstructed_generate_dft X i j
  · intro n k l
    have hn : (n : ℂ) ≠ 0 := Nat.cast_ne_zero.mpr (Nat.not_eq_zero_of_lt k.isLt)
    rw [dft_matrix_eq_pow, inverse_dft_matrix_eq_pow, mul_div_cancel₀ _ hn]

theorem ifftshift_offset (n : ℕ) : n / 2 * 2 = if n % 2 = 0 then n else n - 1 := by
  split <;> omega

theorem wrapIndex_ifftshift (n : ℕ) (i : Fin n) :
    wrapIndex n (n / 2 * 2) i =
      ⟨(i.val + (if n % 2 = 0 then 0 else n - 1)) % n, Nat.mod_lt _ i.pos⟩ := by
  apply Fin.ext
  simp only [wrapIndex]
  rw [ifftshift_offset]
  split
  · rw [Nat.add_mod_right, Nat.add_zero]
  · rfl

/-- C19: `ifftshift` moves the row `i` by the offset 0 when `M` is even and by
`M − 1` when `M` is odd (to the row `(i − 1) mod M`), and likewise for the
columns; when `M` and `N` are both even it returns its input. -/
theorem C19_ifftshift_offsets {α : Type*} {M N : ℕ} (uninit X : Matrix (Fin M) (Fin N) α) :
    (∀ (i : Fin M) (j : Fin N),
      ifftshift uninit X
        ⟨(i.val + (if M % 2 = 0 then 0 else M - 1)) % M, Nat.mod_lt _ i.pos⟩
        ⟨(j.val + (if N % 2 = 0 then 0 else N - 1)) % N, Nat.mod_lt _ j.pos⟩ = X i j) ∧
    (M % 2 = 0 → N % 2 = 0 → ifftshift uninit X = X) := by
  constructor
  · intro i j
    rw [← wrapIndex_ifftshift, ← wrapIndex_ifftshift]
    exact ifftshift_apply uninit X i j
  · intro hM hN
    ext i j
    have h := ifftshift_apply uninit X i j
    rwa [wrapIndex_of_dvd M (M / 2 * 2) ⟨1, by omega⟩,
      wrapIndex_of_dvd N (N / 2 * 2) ⟨1, by omega⟩] at h

/-- Witness for C19 on a 2 × 2 complex matrix. -/
theorem C19_witness :
    2 % 2 = 0 ∧ 2 % 2 = 0 ∧
    ifftshift (0 : Matrix (Fin 2) (Fin 2) ℂ) !![1, 2; 3, 4] = !![1, 2; 3, 4] :=
  ⟨rfl, rfl, (C19_ifftshift_offsets (0 : Matrix (Fin 2) (Fin 2) ℂ) !![1, 2; 3, 4]).2 rfl rfl⟩

/-! ## The grayscale converter -/

theorem byte_div_mem_unit {K : Type*} [LinearOrderedField K] (b : Fin 256) :
    0 ≤ ((b.val : K) / 255.0) ∧ ((b.val : K) / 255.0) ≤ 1 := by
  have h1 : (b.val : K) ≤ 255 := by
    have : b.val ≤ 255 := by omega
    exact_mod_cast this
  have h0 : (0 : K) ≤ (b.val : K) := Nat.cast_nonneg _
  norm_num
  constructor
  · positivity
  · rw [div_le_one (by norm_num)]
    exact h1

/-- C14: for three channels `convert_to_grayscale` returns the `height × width`
matrix whose entry `(y, x)` is `0.299·(R/255) + 0.587·(G/255) + 0.114·(B/255)` for
the bytes `R`, `G`, `B` at the offsets `(y·width + x)·3 + 0, 1, 2`; on the buffer
with `(R, G, B) = (100, 150, 200)` at every pixel every entry is
`(0.299·100 + 0.587·150 + 0.114·200)/255`. -/
theorem C14_grayscale_three_channels {K : Type*} [LinearOrderedField K] (width height : ℕ) :
    (∀ image : ℕ → Fin 256,
      convert_to_grayscale image width height 3 =
        Except.ok (Matrix.of fun (y : Fin height) (x : Fin width) =>
          (0.299 * (((image ((y.val * width + x.val) * 3)).val : K) / 255) +
            0.587 * (((image ((y.val * width + x.val) * 3 + 1)).val : K) / 255) +
            0.114 * (((image ((y.val * width + x.val) * 3 + 2)).val : K) / 255) : K))) ∧
    convert_to_grayscale uniform_rgb_buffer width height 3 =
      Except.ok (Matrix.of fun (_ : Fin height) (_ : Fin width) =>
        ((0.299 * 100 + 0.587 * 150 + 0.114 * 200) / 255 : K)) := by
  have hidx : ∀ (y : Fin height) (x : Fin width),
      (((y.val : ℤ) * (width : ℤ) + (x.val : ℤ)) * 3).toNat = (y.val * width + x.val) * 3 ∧
      (((y.val : ℤ) * (width : ℤ) + (x.val : ℤ)) * 3 + 1).toNat =
        (y.val * width + x.val) * 3 + 1 ∧
      (((y.val : ℤ) * (width : ℤ) + (x.val : ℤ)) * 3 + 2).toNat =
        (y.val * width + x.val) * 3 + 2 := by
    intro y x
    refine ⟨?_, ?_, ?_⟩ <;> omega
  have hgen : ∀ image : ℕ → Fin 256,
      convert_to_grayscale image width height 3 =
        Except.ok (Matrix.of fun (y : Fin height) (x : Fin width) =>
          (0.299 * (((image ((y.val * width + x.val) * 3)).val : K) / 255) +
            0.587 * (((image ((y.val * width + x.val) * 3 + 1)).val : K) / 255) +
            0.114 * (((image ((y.val * width + x.val) * 3 + 2)).val : K) / 255) : K)) := by
    intro image
    unfold convert_to_grayscale
    rw [if_neg (by norm_num), if_pos rfl]
    congr 1
    ext y x
    simp only [Matrix.of_apply]
    rw [(hidx y x).1, (hidx y x).2.1, (hidx y x).2.2]
    norm_num
  refine ⟨hgen, ?_⟩
  rw [hgen]
  congr 1
  ext y x
  simp only [Matrix.of_apply, uniform_rgb_buffer]
  have h0 : (y.val * width + x.val) * 3 % 3 = 0 := by omega
  have h1 : ((y.val * width + x.val) * 3 + 1) % 3 = 1 := by omega
  have h2 : ((y.val * width + x.val) * 3 + 2) % 3 = 2 := by omega
  have e100 : ((100 : Fin 256).val : K) = 100 := by norm_cast
  have e150 : ((150 : Fin 256).val : K) = 150 := by norm_cast
  have e200 : ((200 : Fin 256).val : K) = 200 := by norm_cast
  rw [h0, h1, h2]
  norm_num [e100, e150, e200]

/-- C15: `convert_to_grayscale` returns a `height × width` matrix exactly when the
channel count is 1 or 3, and fails with `UnsupportedFormat`, reporting the
channel count, exactly when it is neither. -/
theorem C15_grayscale_fails_iff_unsupported {K : Type*} [Field K] (image : ℕ → Fin 256)
    (width height : ℕ) (channels : ℤ) :
    ((∃ G : Matrix (Fin height) (Fin width) K,
        convert_to_grayscale image width height channels = Except.ok G) ↔
      (channels = 1 ∨ channels = 3)) ∧
    ((convert_to_grayscale image width height channels :
        Except GrayscaleFailure (Matrix (Fin height) (Fin width) K)) =
        Except.error (GrayscaleFailure.UnsupportedFormat channels) ↔
      ¬ (channels = 1 ∨ channels = 3)) := by
  unfold convert_to_grayscale
  by_cases h1 : channels = 1
  · simp [h1]
  · by_cases h3 : channels = 3
    · simp [h3]
    · simp [h1, h3]

/-- C16: for one channel `convert_to_grayscale` returns the matrix with entry
`(y, x)` equal to `byte[y·width + x]/255`, for three channels it returns a matrix
as well, and in both cases every entry lies in `[0, 1]`. -/
theorem C16_grayscale_in_unit_interval {K : Type*} [LinearOrderedField K]
    (image : ℕ → Fin 256) (width height : ℕ) :
    (∃ G : Matrix (Fin height) (Fin width) K,
      convert_to_grayscale image width height 1 = Except.ok G ∧
      ∀ (y : Fin height) (x : Fin width),
        G y x = ((image (y.val * width + x.val)).val : K) / 255 ∧ 0 ≤ G y x ∧ G y x ≤ 1) ∧
    (∃ G : Matrix (Fin height) (Fin width) K,
      convert_to_grayscale image width height 3 = Except.ok G ∧
      ∀ (y : Fin height) (x : Fin width), 0 ≤ G y x ∧ G y x ≤ 1) := by
  constructor
  · refine ⟨_, if_pos rfl, fun y x => ?_⟩
    simp only [Matrix.of_apply]
    refine ⟨by norm_num, byte_div_mem_unit _⟩
  · unfold convert_to_grayscale
    rw [if_neg (by norm_num), if_pos rfl]
    refine ⟨_, rfl, fun y x => ?_⟩
    simp only [Matrix.of_apply]
    obtain ⟨r0, r1⟩ := byte_div_mem_unit (K := K)
      (image (((y.val : ℤ) * (width : ℤ) + (x.val : ℤ)) * 3).toNat)
    obtain ⟨g0, g1⟩ := byte_div_mem_unit (K := K)
      (image (((y.val : ℤ) * (width : ℤ) + (x.val : ℤ)) * 3 + 1).toNat)
    obtain ⟨b0, b1⟩ := byte_div_mem_unit (K := K)
      (image (((y.val : ℤ) * (width : ℤ) + (x.val : ℤ)) * 3 + 2).toNat)
    norm_num at r0 r1 g0 g1 b0 b1 ⊢
    constructor
    · positivity
    · linarith

end FourierCompress
